import Mathlib

/-
Verification development for the xdB file-backed JSON document store
(src/xdb-full/xdb.js).  The definitions below are a shallow embedding of
the store's data model and operations: JSON-like field values, records as
association lists of fields, the error-code taxonomy of XDB_ERROR_CODES,
the atomic temp-file writer, the single-collection CRUD operations with
secondary-index maintenance, the view.more query pipeline (filter, sort,
skip, limit), and the multi-collection delete pipeline with relation
policies (RESTRICT, CASCADE, SET_NULL).
-/

namespace XdB

/-- Value models a JSON-like JavaScript value as stored in a record field:
a string, an integer number, null, or undefined.  Numbers are modelled as
integers (fractional values are out of scope of this embedding). -/
inductive Value where
  | vStr : String → Value
  | vNum : Int → Value
  | vNull : Value
  | vUndef : Value
deriving DecidableEq

/-- valKey models the JavaScript String(value) coercion used by the index
manager (updateIndex and findIndexedRecords stringify field values) and by
id comparisons. -/
def valKey : Value → String
  | Value.vStr s => s
  | Value.vNum n => toString n
  | Value.vNull => "null"
  | Value.vUndef => "undefined"

/-- parseJsNum models Number(s) for the string shapes representable here:
the empty string is 0, a decimal integer literal with optional leading
minus parses to its value, anything else is NaN (none). -/
def parseJsNum (s : String) : Option Int :=
  if s = "" then some 0
  else
    match s.toNat? with
    | some n => some (n : Int)
    | none =>
      if s.startsWith "-" then
        match (s.drop 1).toNat? with
        | some n => some (-(n : Int))
        | none => none
      else none

/-- jsToNum models the ToNumber coercion applied by JavaScript relational
operators: numbers map to themselves, null to 0, strings through Number(),
undefined to NaN (none). -/
def jsToNum : Value → Option Int
  | Value.vStr s => parseJsNum s
  | Value.vNum n => some n
  | Value.vNull => some 0
  | Value.vUndef => none

/-- jsToNumO extends jsToNum to an optional value, where a missing field
reads as undefined (NaN). -/
def jsToNumO : Option Value → Option Int
  | some v => jsToNum v
  | none => none

/-- jsLtO models the JavaScript relational comparison a < b on possibly
missing field values: when both sides are strings it is lexicographic
string comparison, otherwise both sides are coerced with ToNumber and any
NaN makes the comparison false. -/
def jsLtO (a b : Option Value) : Bool :=
  match a, b with
  | some (Value.vStr x), some (Value.vStr y) => decide (x < y)
  | _, _ =>
    match jsToNumO a, jsToNumO b with
    | some m, some n => decide (m < n)
    | _, _ => false

/-- jsEqStr models JavaScript loose equality between a possibly missing
field value and a string: a string compares by equality, a number compares
through Number() of the string, and null or undefined are never loosely
equal to a string. -/
def jsEqStr (o : Option Value) (s : String) : Bool :=
  match o with
  | some (Value.vStr x) => x == s
  | some (Value.vNum n) => parseJsNum s == some n
  | _ => false

/-- Record models a JavaScript object as an association list from field
names to values, in insertion order. -/
abbrev Record := List (String × Value)

/-- getF models property access record[k], returning none when the
property is absent. -/
def getF (r : Record) (k : String) : Option Value :=
  (r.find? (fun p => p.1 == k)).map (fun p => p.2)

/-- setF models property assignment: the first occurrence of the key is
replaced in place, or the pair is appended at the end as JavaScript
property insertion does. -/
def setF : Record → String → Value → Record
  | [], k, v => [(k, v)]
  | p :: rest, k, v => if p.1 == k then (k, v) :: rest else p :: setF rest k v

/-- idOf models String(record.id) as used throughout xdb.js to compare
record identifiers; a record without an id property stringifies to the
string undefined. -/
def idOf (r : Record) : String :=
  match getF r "id" with
  | some v => valKey v
  | none => "undefined"

/-- mergeFields models the object spread of old with patch: every key of
old keeps its position, taking the patch value when the patch also has the
key, and keys only present in the patch are appended in patch order. -/
def mergeFields (old patch : Record) : Record :=
  (old.map (fun p =>
    match getF patch p.1 with
    | some v => (p.1, v)
    | none => p)) ++ patch.filter (fun q => (getF old q.1).isNone)

/-- mergeRecord embeds the shallow-merge update of editRecordById, the
object expression with spread of the original record, spread of the patch,
and id reset to the original record's id. -/
def mergeRecord (old patch : Record) : Record :=
  setF (mergeFields old patch) "id" ((getF old "id").getD Value.vUndef)

/-- ErrCode is the closed error taxonomy XDB_ERROR_CODES of xdb.js. -/
inductive ErrCode where
  | fileNotFound
  | dirNotFound
  | ioError
  | invalidJson
  | recordNotFound
  | recordExists
  | operationFailed
  | invalidConfig
  | invalidSchema
deriving DecidableEq

/-- errCodeStr gives the string value each XDB_ERROR_CODES member carries
in the source. -/
def errCodeStr : ErrCode → String
  | ErrCode.fileNotFound => "XDB_FILE_NOT_FOUND"
  | ErrCode.dirNotFound => "XDB_DIR_NOT_FOUND"
  | ErrCode.ioError => "XDB_IO_ERROR"
  | ErrCode.invalidJson => "XDB_INVALID_JSON"
  | ErrCode.recordNotFound => "XDB_RECORD_NOT_FOUND"
  | ErrCode.recordExists => "XDB_RECORD_EXISTS"
  | ErrCode.operationFailed => "XDB_OPERATION_FAILED"
  | ErrCode.invalidConfig => "XDB_INVALID_CONFIG"
  | ErrCode.invalidSchema => "XDB_INVALID_SCHEMA"

/-- xdbErrorCodeStrings lists the complete set of error-code strings
declared by XDB_ERROR_CODES in xdb.js. -/
def xdbErrorCodeStrings : List String :=
  ["XDB_FILE_NOT_FOUND", "XDB_DIR_NOT_FOUND", "XDB_IO_ERROR",
   "XDB_INVALID_JSON", "XDB_RECORD_NOT_FOUND", "XDB_RECORD_EXISTS",
   "XDB_OPERATION_FAILED", "XDB_INVALID_CONFIG", "XDB_INVALID_SCHEMA"]

end XdB

namespace XdB.FS

/-- AWStep enumerates the fallible steps of atomicWrite in source order:
ensure the parent directory, open the fresh temp file, write the full
content, fsync, close, and rename onto the target. -/
inductive AWStep where
  | ensureDir
  | openTemp
  | writeTemp
  | syncTemp
  | closeTemp
  | renameTemp
deriving DecidableEq

/-- FSFile is the filesystem state relevant to one atomicWrite call: the
committed content of the target path and the content of this call's
freshly named temp sibling (none when no such file exists). -/
structure FSFile where
  target : Option String
  temp : Option String
deriving DecidableEq

/-- cleanupTempFS embeds cleanupTempFile: the temp file is unlinked
(a missing temp is tolerated), the target is untouched. -/
def cleanupTempFS (fs : FSFile) : FSFile := ⟨fs.target, none⟩

/-- atomicWriteFS embeds atomicWrite over an oracle naming the step that
fails (none for a fully successful run).  The temp sibling is fresh, so it
starts absent; each step transforms the state as the source does, and any
failure runs the catch block: close and cleanupTempFile, then a wrapped
IO_ERROR.  Only the final rename touches the target. -/
def atomicWriteFS (failAt : Option AWStep) (data : String) (target0 : Option String) :
    FSFile × Option ErrCode :=
  if failAt = some AWStep.ensureDir then
    (cleanupTempFS ⟨target0, none⟩, some ErrCode.ioError)
  else if failAt = some AWStep.openTemp then
    (cleanupTempFS ⟨target0, none⟩, some ErrCode.ioError)
  else
    let opened : FSFile := ⟨target0, some ""⟩
    if failAt = some AWStep.writeTemp then
      (cleanupTempFS opened, some ErrCode.ioError)
    else
      let written : FSFile := ⟨target0, some data⟩
      if failAt = some AWStep.syncTemp then
        (cleanupTempFS written, some ErrCode.ioError)
      else if failAt = some AWStep.closeTemp then
        (cleanupTempFS written, some ErrCode.ioError)
      else if failAt = some AWStep.renameTemp then
        (cleanupTempFS written, some ErrCode.ioError)
      else
        (⟨some data, none⟩, none)

end XdB.FS

namespace XdB.View

open XdB

/-- SortCrit is one sort criterion of view.more: a field key, a
descending flag (order desc), and an optional custom comparator that
overrides the key comparison. -/
structure SortCrit where
  key : String
  desc : Bool
  comparator : Option (Record → Record → Int)

/-- keyCmp is the key-based comparison of the view.more sort callback:
minus one when a[key] < b[key], one when a[key] > b[key], zero
otherwise, with JavaScript relational semantics. -/
def keyCmp (k : String) (a b : Record) : Int :=
  if jsLtO (getF a k) (getF b k) then -1
  else if jsLtO (getF b k) (getF a k) then 1
  else 0

/-- critCmp evaluates one criterion: the custom comparator when present,
else the key comparison. -/
def critCmp (c : SortCrit) (a b : Record) : Int :=
  match c.comparator with
  | some f => f a b
  | none => keyCmp c.key a b

/-- dirOf is the direction multiplier: minus one for desc, one for asc. -/
def dirOf (c : SortCrit) : Int := if c.desc then -1 else 1

/-- multiCmp is the multi-criteria comparison callback passed to sort:
the first criterion with a nonzero comparison decides, multiplied by its
direction; later criteria only break ties of earlier ones. -/
def multiCmp : List SortCrit → Record → Record → Int
  | [], _, _ => 0
  | c :: cs, a, b =>
    let comp := critCmp c a b
    if comp ≠ 0 then comp * dirOf c else multiCmp cs a b

/-- insertJs inserts an element into a list, passing over exactly the
elements the comparator orders strictly before it.  Together with sortJs
this is a stable sort, which is what ECMAScript guarantees for
Array.prototype.sort. -/
def insertJs (cmp : Record → Record → Int) (x : Record) : List Record → List Record
  | [] => [x]
  | y :: ys => if cmp y x < 0 then y :: insertJs cmp x ys else x :: y :: ys

/-- sortJs embeds Array.prototype.sort with a comparator as a stable
insertion sort: elements are inserted left to right, each placed before
the first element not strictly smaller, so tied elements keep their
original relative order. -/
def sortJs (cmp : Record → Record → Int) : List Record → List Record
  | [] => []
  | x :: xs => insertJs cmp x (sortJs cmp xs)

/-- ViewOpts carries the view.more options relevant to the query pipeline:
optional filter predicate, optional sort criteria, skip and limit (none
meaning absent, where an absent limit is Infinity). -/
structure ViewOpts where
  filter : Option (Record → Bool)
  sort : Option (List SortCrit)
  skip : Option Nat
  limit : Option Nat

/-- viewMoreData is the data pipeline of view.more: apply the filter,
apply the multi-key sort, then slice(skip, skip + limit). -/
def viewMoreData (opts : ViewOpts) (data : List Record) : List Record :=
  let d1 := match opts.filter with
    | some p => data.filter p
    | none => data
  let d2 := match opts.sort with
    | some cs => sortJs (multiCmp cs) d1
    | none => d1
  let sk := match opts.skip with
    | some n => n
    | none => 0
  match opts.limit with
  | some m => (d2.drop sk).take m
  | none => d2.drop sk

/-- viewMoreResultKeys lists the keys of the object returned by
view.more in the source: only the resolved path and the data page. -/
def viewMoreResultKeys : List String := ["path", "data"]

end XdB.View

namespace XdB.Store

open XdB

/-- Bucket is the content of one per-field index file: a map from a
stringified field value to the list of record ids holding that value. -/
abbrev Bucket := List (String × List String)

/-- Idx is the index directory of one collection: a map from indexed
field name to that field's index-file content. -/
abbrev Idx := List (String × Bucket)

/-- lookupAssoc looks a key up in an association list, first occurrence. -/
def lookupAssoc {β : Type} (l : List (String × β)) (k : String) : Option β :=
  (l.find? (fun p => p.1 == k)).map (fun p => p.2)

/-- setAssoc replaces the value at a key in place, or appends the pair
when the key is absent, as JavaScript object assignment does. -/
def setAssoc {β : Type} : List (String × β) → String → β → List (String × β)
  | [], k, v => [(k, v)]
  | p :: rest, k, v => if p.1 == k then (k, v) :: rest else p :: setAssoc rest k v

/-- eraseAssoc removes a key from an association list, modelling the
delete operator on an object property. -/
def eraseAssoc {β : Type} (l : List (String × β)) (k : String) : List (String × β) :=
  l.filter (fun p => p.1 != k)

/-- idsAt reads the id list stored under a value key, empty when the key
is absent. -/
def idsAt (b : Bucket) (k : String) : List String := (lookupAssoc b k).getD []

/-- bucketAdd embeds the mutation of updateIndex on one index file:
create the entry when missing, then push the record id unless already
present. -/
def bucketAdd (b : Bucket) (k : String) (id : String) : Bucket :=
  let ids := idsAt b k
  if id ∈ ids then b else setAssoc b k (ids ++ [id])

/-- bucketRemove embeds the mutation of removeFromIndex on one index
file: when the entry holds the id, filter it out everywhere and delete
the entry when it becomes empty; otherwise leave the file untouched. -/
def bucketRemove (b : Bucket) (k : String) (id : String) : Bucket :=
  match lookupAssoc b k with
  | none => b
  | some ids =>
    if id ∈ ids then
      let ids2 := ids.filter (fun x => x != id)
      if ids2.isEmpty then eraseAssoc b k else setAssoc b k ids2
    else b

/-- bucketOf reads one field's index-file content, empty when the index
file does not exist. -/
def bucketOf (idx : Idx) (F : String) : Bucket := (lookupAssoc idx F).getD []

/-- updateIndexS embeds updateIndex for one collection: rewrite the
field's index file with the id added under the stringified value. -/
def updateIndexS (idx : Idx) (F k id : String) : Idx :=
  setAssoc idx F (bucketAdd (bucketOf idx F) k id)

/-- removeFromIndexS embeds removeFromIndex: a missing index file is left
missing, otherwise the id is removed under the stringified value. -/
def removeFromIndexS (idx : Idx) (F k id : String) : Idx :=
  match lookupAssoc idx F with
  | none => idx
  | some b => setAssoc idx F (bucketRemove b k id)

/-- findIdsS embeds findIndexedRecords at the level of stringified value
keys: read the field's index file and return the id list stored under the
key, empty when absent. -/
def findIdsS (idx : Idx) (F k : String) : List String := idsAt (bucketOf idx F) k

/-- recContrib gives the index contribution of one record to one field
during rebuildIndexesForFile: the record must have the field and an id
that is neither undefined nor null; the contribution is the stringified
value paired with the stringified id. -/
def recContrib (r : Record) (F : String) : Option (String × String) :=
  match getF r "id", getF r F with
  | some iv, some v =>
    if iv = Value.vNull ∨ iv = Value.vUndef then none
    else some (valKey v, valKey iv)
  | _, _ => none

/-- rebuildField embeds the per-field loop of rebuildIndexesForFile: fold
the records in order, adding each contribution with deduplication. -/
def rebuildField (recs : List Record) (F : String) : Bucket :=
  recs.foldl (fun b r =>
    match recContrib r F with
    | some (k, id) => bucketAdd b k id
    | none => b) []

/-- rebuildIndexS embeds rebuildIndexesForFile: each configured field's
index file is atomically overwritten with the freshly rebuilt content;
index files of unconfigured fields are left as they are. -/
def rebuildIndexS (recs : List Record) (flds : List String) (idx : Idx) : Idx :=
  flds.foldl (fun ix F => setAssoc ix F (rebuildField recs F)) idx

/-- St is the durable state of one collection: its data file (none when
the file does not exist), its index directory, and the process-wide
relation cache (abstracted to its set of entries). -/
structure St where
  file : Option (List Record)
  index : Idx
  cache : List String
deriving DecidableEq

/-- Event enumerates the lifecycle events emitted by the record-store
operations. -/
inductive Event where
  | beforeAddAll | afterAddAll | errorAddAll
  | beforeAddId | afterAddId | errorAddId
  | beforeEditAll | afterEditAll | errorEditAll
  | beforeEditId | afterEditId | errorEditId
  | beforeDeleteAll | afterDeleteAll | errorDeleteAll
  | beforeDeleteId | afterDeleteId | errorDeleteId
deriving DecidableEq

/-- OpOut is the observable outcome of one store operation: the state
after the call, the events emitted, and the error code when it failed. -/
structure OpOut where
  st : St
  events : List Event
  err : Option ErrCode
deriving DecidableEq

/-- recsOf reads the collection's records: a missing data file reads as
empty, as safeParseJSON maps ENOENT to an empty array. -/
def recsOf (st : St) : List Record := st.file.getD []

/-- replaceFirst replaces the first record satisfying the predicate,
embedding the findIndex-then-assign update of editRecordById. -/
def replaceFirst (p : Record → Bool) (new : Record) : List Record → List Record
  | [] => []
  | r :: rest => if p r then new :: rest else r :: replaceFirst p new rest

/-- applyAddIndexes embeds the per-field updateIndex loop run after a
record is added or edited: every configured field the record owns gets an
index entry under the record's stringified value. -/
def applyAddIndexes (rec : Record) (rid : String) (flds : List String) (idx : Idx) : Idx :=
  flds.foldl (fun ix F =>
    match getF rec F with
    | some v => updateIndexS ix F (valKey v) rid
    | none => ix) idx

/-- applyRemoveIndexes embeds the per-field removeFromIndex loop run for
a deleted record or for the pre-image of an edited record. -/
def applyRemoveIndexes (rec : Record) (rid : String) (flds : List String) (idx : Idx) : Idx :=
  flds.foldl (fun ix F =>
    match getF rec F with
    | some v => removeFromIndexS ix F (valKey v) rid
    | none => ix) idx

/-- assignIds embeds the id-assignment map of addAll: a record with an
undefined or null id receives the next generated token, any other id is
stringified and validated to be non-empty (a violation is wrapped as
OPERATION_FAILED). -/
def assignIds (gen : Nat → String) : Nat → List Record → Except ErrCode (List Record)
  | _, [] => Except.ok []
  | c, r :: rest =>
    match getF r "id" with
    | some v =>
      if v = Value.vNull ∨ v = Value.vUndef then
        (assignIds gen (c + 1) rest).map (fun out => setF r "id" (Value.vStr (gen c)) :: out)
      else
        if valKey v = "" then Except.error ErrCode.operationFailed
        else (assignIds gen c rest).map (fun out => setF r "id" (Value.vStr (valKey v)) :: out)
    | none =>
      (assignIds gen (c + 1) rest).map (fun out => setF r "id" (Value.vStr (gen c)) :: out)

/-- hasDupIds embeds the duplicate check of addAll, which compares the
size of a Set of the ids with the number of ids. -/
def hasDupIds (ids : List String) : Bool := ids.dedup.length != ids.length

/-- addAllS embeds add.all on one collection: assign missing ids, reject
duplicate ids in the supplied sequence, refuse to replace an existing file
unless overwrite is set, then atomically replace the file, rebuild the
configured indexes from the new snapshot, and clear the relation cache. -/
def addAllS (flds : List String) (gen : Nat → String) (initialData : List Record)
    (overwrite : Bool) (st : St) : OpOut :=
  match assignIds gen 0 initialData with
  | Except.error e => ⟨st, [Event.beforeAddAll, Event.errorAddAll], some e⟩
  | Except.ok processed =>
    if hasDupIds (processed.map idOf) then
      ⟨st, [Event.beforeAddAll, Event.errorAddAll], some ErrCode.recordExists⟩
    else if st.file.isSome && !overwrite then
      ⟨st, [Event.beforeAddAll, Event.errorAddAll], some ErrCode.operationFailed⟩
    else
      ⟨⟨some processed, rebuildIndexS processed flds st.index, []⟩,
        [Event.beforeAddAll, Event.afterAddAll], none⟩

/-- normalizeIds embeds the validation pass of edit.all: a record whose
id is present and neither undefined nor null has it stringified and
validated non-empty; other records pass through unchanged (edit.all does
not assign missing ids and does not check duplicates). -/
def normalizeIds : List Record → Except ErrCode (List Record)
  | [] => Except.ok []
  | r :: rest =>
    match getF r "id" with
    | some v =>
      if v = Value.vNull ∨ v = Value.vUndef then
        (normalizeIds rest).map (fun out => r :: out)
      else
        if valKey v = "" then Except.error ErrCode.operationFailed
        else (normalizeIds rest).map (fun out => setF r "id" (Value.vStr (valKey v)) :: out)
    | none => (normalizeIds rest).map (fun out => r :: out)

/-- editAllS embeds edit.all: validate, unconditionally replace the whole
file, rebuild the configured indexes from the new snapshot, clear the
relation cache. -/
def editAllS (flds : List String) (newData : List Record) (st : St) : OpOut :=
  match normalizeIds newData with
  | Except.error e => ⟨st, [Event.beforeEditAll, Event.errorEditAll], some e⟩
  | Except.ok written =>
    ⟨⟨some written, rebuildIndexS written flds st.index, []⟩,
      [Event.beforeEditAll, Event.afterEditAll], none⟩

/-- idLoop embeds the collision-retry loop of add.id: starting from the
initially generated token (attempt 0), regenerate while the current token
collides and fewer than 10 regenerations have happened; the result is the
final attempt count and token.  The fuel argument only bounds recursion
and is ample at 11. -/
def idLoop (collides : String → Bool) (gen : Nat → String) : Nat → Nat → Nat × String
  | attempts, 0 => (attempts, gen attempts)
  | attempts, fuel + 1 =>
    if collides (gen attempts) && decide (attempts < 10) then
      idLoop collides gen (attempts + 1) fuel
    else (attempts, gen attempts)

/-- addRecordByIdS embeds add.id: a record with an undefined or null id
gets a generated token with at most 10 collision regenerations and the
call fails with OPERATION_FAILED when the bound is exhausted; a supplied
id is stringified, validated, and rejected with RECORD_EXISTS when
already present; on success the record is appended, the configured
indexes updated, and the relation cache cleared. -/
def addRecordByIdS (flds : List String) (gen : Nat → String) (newRecord : Record)
    (st : St) : OpOut :=
  let data := recsOf st
  let collides := fun s => data.any (fun r => idOf r == s)
  let idVal := getF newRecord "id"
  let generated := idVal = none ∨ idVal = some Value.vNull ∨ idVal = some Value.vUndef
  if generated then
    let (attempts, tok) := idLoop collides gen 0 11
    if attempts ≥ 10 then
      ⟨st, [Event.beforeAddId, Event.errorAddId], some ErrCode.operationFailed⟩
    else
      let rec2 := setF newRecord "id" (Value.vStr tok)
      let data2 := data ++ [rec2]
      ⟨⟨some data2, applyAddIndexes rec2 tok flds st.index, []⟩,
        [Event.beforeAddId, Event.afterAddId], none⟩
  else
    match idVal with
    | some v =>
      let s := valKey v
      if s = "" then
        ⟨st, [Event.beforeAddId, Event.errorAddId], some ErrCode.operationFailed⟩
      else if collides s then
        ⟨st, [Event.beforeAddId, Event.errorAddId], some ErrCode.recordExists⟩
      else
        let rec2 := setF newRecord "id" (Value.vStr s)
        let data2 := data ++ [rec2]
        ⟨⟨some data2, applyAddIndexes rec2 s flds st.index, []⟩,
          [Event.beforeAddId, Event.afterAddId], none⟩
    | none => ⟨st, [Event.beforeAddId, Event.errorAddId], some ErrCode.operationFailed⟩

/-- editRecordByIdS embeds edit.id: validate the stringified id, locate
the first record whose stringified id matches (RECORD_NOT_FOUND when
none), replace it with the shallow merge keeping the original id, write
the file, remove the pre-image's index entries and add the merged
record's, and clear the relation cache. -/
def editRecordByIdS (flds : List String) (recordId : String) (patch : Record)
    (st : St) : OpOut :=
  if recordId = "" then
    ⟨st, [Event.beforeEditId, Event.errorEditId], some ErrCode.operationFailed⟩
  else
    match (recsOf st).find? (fun r => idOf r == recordId) with
    | none => ⟨st, [Event.beforeEditId, Event.errorEditId], some ErrCode.recordNotFound⟩
    | some old =>
      ⟨⟨some (replaceFirst (fun r => idOf r == recordId) (mergeRecord old patch) (recsOf st)),
        applyAddIndexes (mergeRecord old patch) recordId flds
          (applyRemoveIndexes old recordId flds st.index), []⟩,
        [Event.beforeEditId, Event.afterEditId], none⟩

/-- deleteRecordByIdS embeds the collection-local effect of del.id:
validate the stringified id, filter out every record whose stringified id
matches (RECORD_NOT_FOUND when nothing was removed), write the filtered
file, remove the index entries of the first matching record, and clear
the relation cache.  Relation side effects touch other collections and
are modelled separately. -/
def deleteRecordByIdS (flds : List String) (recordId : String) (st : St) : OpOut :=
  if recordId = "" then
    ⟨st, [Event.beforeDeleteId, Event.errorDeleteId], some ErrCode.operationFailed⟩
  else if ((recsOf st).filter (fun r => idOf r != recordId)).length == (recsOf st).length then
    ⟨st, [Event.beforeDeleteId, Event.errorDeleteId], some ErrCode.recordNotFound⟩
  else
    match (recsOf st).find? (fun r => idOf r == recordId) with
    | none => ⟨st, [Event.beforeDeleteId, Event.errorDeleteId], some ErrCode.recordNotFound⟩
    | some rec =>
      ⟨⟨some ((recsOf st).filter (fun r => idOf r != recordId)),
        applyRemoveIndexes rec recordId flds st.index, []⟩,
        [Event.beforeDeleteId, Event.afterDeleteId], none⟩

/-- deleteAllS embeds del.all: when the data file does not exist the call
returns successfully at once, before the truncation, the index-directory
removal, the cache clearing and the after event; when the file exists it
is truncated to an empty array, the collection's whole index directory is
removed, and the relation cache is cleared. -/
def deleteAllS (st : St) : OpOut :=
  match st.file with
  | none => ⟨st, [Event.beforeDeleteAll], none⟩
  | some _ =>
    ⟨⟨some [], [], []⟩, [Event.beforeDeleteAll, Event.afterDeleteAll], none⟩

/-- Reachable describes every collection state reachable from the initial
state (no data file, no index files, empty cache) by successful store
operations, with the inputs the source accepts. -/
inductive Reachable (flds : List String) : St → Prop where
  | init : Reachable flds ⟨none, [], []⟩
  | addAll (s : St) (gen : Nat → String) (recs : List Record) (ow : Bool) :
      Reachable flds s → (addAllS flds gen recs ow s).err = none →
      Reachable flds (addAllS flds gen recs ow s).st
  | editAll (s : St) (recs : List Record) :
      Reachable flds s → (editAllS flds recs s).err = none →
      Reachable flds (editAllS flds recs s).st
  | addId (s : St) (gen : Nat → String) (r : Record) :
      Reachable flds s → (addRecordByIdS flds gen r s).err = none →
      Reachable flds (addRecordByIdS flds gen r s).st
  | editId (s : St) (rid : String) (patch : Record) :
      Reachable flds s → (editRecordByIdS flds rid patch s).err = none →
      Reachable flds (editRecordByIdS flds rid patch s).st
  | delId (s : St) (rid : String) :
      Reachable flds s → (deleteRecordByIdS flds rid s).err = none →
      Reachable flds (deleteRecordByIdS flds rid s).st
  | delAll (s : St) :
      Reachable flds s → (deleteAllS s).err = none →
      Reachable flds (deleteAllS s).st

/-- WfIds states that an edit.all input behaves like an add.all input:
every supplied record carries an id that is neither undefined nor null,
and the stringified ids are pairwise distinct. -/
def WfIds (recs : List Record) : Prop :=
  (∀ r ∈ recs, ∃ v, getF r "id" = some v ∧ v ≠ Value.vNull ∧ v ≠ Value.vUndef) ∧
    (recs.map idOf).Nodup

/-- ReachableWf is Reachable with edit.all restricted to well-identified
inputs (edit.all itself performs no duplicate-id check). -/
inductive ReachableWf (flds : List String) : St → Prop where
  | init : ReachableWf flds ⟨none, [], []⟩
  | addAll (s : St) (gen : Nat → String) (recs : List Record) (ow : Bool) :
      ReachableWf flds s → (addAllS flds gen recs ow s).err = none →
      ReachableWf flds (addAllS flds gen recs ow s).st
  | editAll (s : St) (recs : List Record) :
      ReachableWf flds s → WfIds recs → (editAllS flds recs s).err = none →
      ReachableWf flds (editAllS flds recs s).st
  | addId (s : St) (gen : Nat → String) (r : Record) :
      ReachableWf flds s → (addRecordByIdS flds gen r s).err = none →
      ReachableWf flds (addRecordByIdS flds gen r s).st
  | editId (s : St) (rid : String) (patch : Record) :
      ReachableWf flds s → (editRecordByIdS flds rid patch s).err = none →
      ReachableWf flds (editRecordByIdS flds rid patch s).st
  | delId (s : St) (rid : String) :
      ReachableWf flds s → (deleteRecordByIdS flds rid s).err = none →
      ReachableWf flds (deleteRecordByIdS flds rid s).st
  | delAll (s : St) :
      ReachableWf flds s → (deleteAllS s).err = none →
      ReachableWf flds (deleteAllS s).st

/-- findIndexedRecordsS embeds findIndexedRecords: stringify the queried
value and read the id list from the field's index file. -/
def findIndexedRecordsS (st : St) (F : String) (v : Value) : List String :=
  findIdsS st.index F (valKey v)

/-- IndexConsistent is the index-consistency property of the claim: for
every configured field, every record owning the field is found under its
stringified value, and every id an index lookup returns belongs to a
record whose field stringifies to the queried value. -/
def IndexConsistent (flds : List String) (st : St) : Prop :=
  ∀ F ∈ flds,
    ((∀ r ∈ recsOf st, ∀ v, getF r F = some v → idOf r ∈ findIndexedRecordsS st F v) ∧
      (∀ v id, id ∈ findIndexedRecordsS st F v →
        ∃ r ∈ recsOf st, idOf r = id ∧ ∃ w, getF r F = some w ∧ valKey w = valKey v))

end XdB.Store

namespace XdB.Rel

open XdB
open XdB.Store (replaceFirst)

/-- RelType is the declared relation type. -/
inductive RelType where
  | one2one
  | one2many
  | many2many
deriving DecidableEq

/-- DelPolicy is the onDelete strategy of a relation. -/
inductive DelPolicy where
  | restrictPolicy
  | cascade
  | setNull
deriving DecidableEq

/-- RelCfg is a validated relation definition: type, local and foreign
collection and field, junction data (meaningful for many-to-many), and
the onDelete strategy. -/
structure RelCfg where
  rtype : RelType
  localFile : String
  localField : String
  foreignFile : String
  foreignField : String
  junctionFile : String
  junctionLocalField : String
  junctionForeignField : String
  onDelete : DelPolicy
deriving DecidableEq

/-- MSt is the multi-collection state: the content of every collection
file (none when absent) and the set of lock-held paths. -/
structure MSt where
  colls : String → Option (List Record)
  locks : List String

/-- Act records one collection-file write performed by an operation, in
order. -/
inductive Act where
  | writeColl : String → List Record → Act
deriving DecidableEq

/-- readColl reads one collection, a missing file reading as empty. -/
def readColl (m : MSt) (f : String) : List Record := (m.colls f).getD []

/-- setColl writes one collection file. -/
def setColl (m : MSt) (f : String) (d : List Record) : MSt :=
  ⟨fun g => if g == f then some d else m.colls g, m.locks⟩

/-- checkFileOf is the collection del.id inspects for a relation: the
junction collection for many-to-many, else the foreign collection. -/
def checkFileOf (r : RelCfg) : String :=
  match r.rtype with
  | RelType.many2many => r.junctionFile
  | _ => r.foreignFile

/-- checkFieldOf is the field del.id matches against the deleted id: the
junction local field for many-to-many, else the foreign field. -/
def checkFieldOf (r : RelCfg) : String :=
  match r.rtype with
  | RelType.many2many => r.junctionLocalField
  | _ => r.foreignField

/-- relMatches lists the referencing records of one relation for the
deleted id, per the filter callback r[field] == recordId of del.id. -/
def relMatches (m : MSt) (r : RelCfg) (rid : String) : List Record :=
  (readColl m (checkFileOf r)).filter (fun rec => jsEqStr (getF rec (checkFieldOf r)) rid)

/-- editRecordByIdMS is edit.id at the multi-collection level (used by
SET_NULL): acquire the collection lock (failing with the lock-timeout
OPERATION_FAILED when already held), locate the first record with the
stringified id, replace it with the shallow merge, and write the file. -/
def editRecordByIdMS (m : MSt) (file : String) (rid : String) (patch : Record) :
    MSt × List Act × Option ErrCode :=
  if rid = "" then (m, [], some ErrCode.operationFailed)
  else if file ∈ m.locks then (m, [], some ErrCode.operationFailed)
  else
    let data := readColl m file
    match data.find? (fun r => idOf r == rid) with
    | none => (m, [], some ErrCode.recordNotFound)
    | some old =>
      let updated := mergeRecord old patch
      let d2 := replaceFirst (fun r => idOf r == rid) updated data
      (setColl m file d2, [Act.writeColl file d2], none)

/-- deleteRecordByIdMS embeds del.id with relation handling.  The lock on
the target collection is held for the duration, so a nested operation on
the same file times out (OPERATION_FAILED) and is swallowed by the
cascade error handling.  All relation checks issue their reads before any
related write can complete (each immediately-invoked check suspends at
its first read, and writes only happen after a read resolves), so every
check is evaluated against the entry snapshot; a referencing record under
any RESTRICT relation rejects the whole operation.  CASCADE recursively
deletes each referencing record (junction entries for many-to-many) with
full relation handling; SET_NULL deletes junction entries for
many-to-many and otherwise shallow-merges null over the foreign field of
each referencing record not already null; individual cascade and set-null
failures are logged and swallowed.  Only then is the filtered target
collection written.  The fuel argument bounds the cascade recursion
depth; an exhausted fuel behaves like a failed nested operation. -/
def deleteRecordByIdMS (rels : List RelCfg) :
    Nat → String → String → MSt → MSt × List Act × Option ErrCode
  | 0, _, _, m => (m, [], some ErrCode.operationFailed)
  | fuel + 1, file, rid, m =>
    if rid = "" then (m, [], some ErrCode.operationFailed)
    else if file ∈ m.locks then (m, [], some ErrCode.operationFailed)
    else if ((readColl m file).filter (fun r => idOf r != rid)).length
        == (readColl m file).length then
      (m, [], some ErrCode.recordNotFound)
    else if (rels.filter (fun r => r.localFile == file)).any (fun r =>
        r.onDelete == DelPolicy.restrictPolicy && !(relMatches m r rid).isEmpty) then
      (m, [], some ErrCode.operationFailed)
    else
      let effects := (rels.filter (fun r => r.localFile == file)).foldl
        (fun (acc : MSt × List Act) r =>
          match r.onDelete with
          | DelPolicy.restrictPolicy => acc
          | DelPolicy.cascade =>
            (relMatches m r rid).foldl (fun (a : MSt × List Act) item =>
              let step := deleteRecordByIdMS rels fuel (checkFileOf r) (idOf item) a.1
              (step.1, a.2 ++ step.2.1)) acc
          | DelPolicy.setNull =>
            match r.rtype with
            | RelType.many2many =>
              (relMatches m r rid).foldl (fun (a : MSt × List Act) item =>
                let step := deleteRecordByIdMS rels fuel (checkFileOf r) (idOf item) a.1
                (step.1, a.2 ++ step.2.1)) acc
            | _ =>
              (relMatches m r rid).foldl (fun (a : MSt × List Act) item =>
                if getF item (checkFieldOf r) == some Value.vNull then a
                else
                  let step := editRecordByIdMS a.1 r.foreignFile (idOf item)
                    [(r.foreignField, Value.vNull)]
                  (step.1, a.2 ++ step.2.1)) acc)
        (⟨m.colls, file :: m.locks⟩, [])
      (setColl ⟨effects.1.colls, m.locks⟩ file
          ((readColl m file).filter (fun r => idOf r != rid)),
        effects.2 ++ [Act.writeColl file ((readColl m file).filter (fun r => idOf r != rid))],
        none)

end XdB.Rel

namespace XdB.Fixtures

open XdB XdB.Store XdB.View XdB.Rel

/-- mRel is a two-collection state: collection a.json holds one record
with id x, collection b.json holds one record referencing it through the
field aid. -/
def mRel : MSt :=
  ⟨fun f =>
    if f == "a.json" then some [[("id", Value.vStr "x")]]
    else if f == "b.json" then some [[("id", Value.vStr "y"), ("aid", Value.vStr "x")]]
    else none, []⟩

/-- relCascade is a one-to-many relation from a.json to b.json with
onDelete CASCADE. -/
def relCascade : RelCfg :=
  ⟨RelType.one2many, "a.json", "id", "b.json", "aid", "", "", "", DelPolicy.cascade⟩

/-- relRestrict is a one-to-many relation from a.json to b.json with
onDelete RESTRICT. -/
def relRestrict : RelCfg :=
  ⟨RelType.one2many, "a.json", "id", "b.json", "aid", "", "", "", DelPolicy.restrictPolicy⟩

/-- dupRecs is an edit.all input holding two records with the same id,
which edit.all accepts because it performs no duplicate check. -/
def dupRecs : List Record :=
  [[("id", Value.vStr "x"), ("f", Value.vStr "A")],
   [("id", Value.vStr "x"), ("f", Value.vStr "B")]]

/-- stDup is the state after edit.all writes the duplicate-id input into
a collection whose field f is indexed. -/
def stDup : St := (editAllS ["f"] dupRecs ⟨none, [], []⟩).st

/-- stBad is the state after deleting id x from stDup: both duplicates
leave the file but only the first record's index entry is removed. -/
def stBad : St := (deleteRecordByIdS ["f"] "x" stDup).st

/-- genW is a constant id generator used by the index-consistency
witness. -/
def genW : Nat → String := fun _ => "gid"

/-- recsW is a one-record add.all input without an id. -/
def recsW : List Record := [[("name", Value.vStr "Alice")]]

/-- stW is the state after add.all writes recsW with the name field
indexed. -/
def stW : St := (addAllS ["name"] genW recsW true ⟨none, [], []⟩).st

/-- fiveRecs is a five-record collection used for the pagination
instance. -/
def fiveRecs : List Record :=
  [[("id", Value.vStr "0")], [("id", Value.vStr "1")], [("id", Value.vStr "2")],
   [("id", Value.vStr "3")], [("id", Value.vStr "4")]]

/-- recNum5 holds the number 5 at the sort key. -/
def recNum5 : Record := [("id", Value.vStr "1"), ("k", Value.vNum 5)]

/-- recNullK holds null at the sort key. -/
def recNullK : Record := [("id", Value.vStr "2"), ("k", Value.vNull)]

/-- tieA and tieB tie on the sort key, tieM sorts before them. -/
def tieA : Record := [("id", Value.vStr "a"), ("k", Value.vNum 1)]

/-- tieM sorts strictly before the tied pair. -/
def tieM : Record := [("id", Value.vStr "m"), ("k", Value.vNum 0)]

/-- tieB ties with tieA on the sort key and follows it in the input. -/
def tieB : Record := [("id", Value.vStr "b"), ("k", Value.vNum 1)]

/-- stC6 is a one-record collection for the edit witness. -/
def stC6 : St := ⟨some [[("id", Value.vStr "1"), ("a", Value.vNum 1)]], [], []⟩

/-- oldC6 is the record stored in stC6. -/
def oldC6 : Record := [("id", Value.vStr "1"), ("a", Value.vNum 1)]

/-- patchC6 patches the field a and tries to overwrite the id. -/
def patchC6 : Record := [("a", Value.vNum 2), ("id", Value.vStr "9")]

/-- st7 holds one record whose id collides with the generator's first
candidate. -/
def st7 : St := ⟨some [[("id", Value.vStr "g0")]], [], []⟩

/-- gen7 generates g0 first and g1 on every retry. -/
def gen7 : Nat → String := fun n => if n = 0 then "g0" else "g1"

/-- rec7 is a record without an id. -/
def rec7 : Record := [("n", Value.vNum 1)]

/-- gen8 is a constant generator for the add.all witness. -/
def gen8 : Nat → String := fun _ => "z"

/-- recs8 is an add.all input with a duplicated supplied id. -/
def recs8 : List Record := [[("id", Value.vStr "d")], [("id", Value.vStr "d")]]

/-- st8 is the empty initial collection state. -/
def st8 : St := ⟨none, [], []⟩

/-- stC10 has no data file but a leftover index file and a cache entry. -/
def stC10 : St := ⟨none, [("f", [("A", ["x"])])], ["entry"]⟩

end XdB.Fixtures

namespace XdB.Store

open XdB

theorem lookupAssoc_cons {β : Type} (p : String × β) (rest : List (String × β)) (k : String) :
    lookupAssoc (p :: rest) k = if p.1 = k then some p.2 else lookupAssoc rest k := by
  unfold lookupAssoc
  rw [List.find?_cons]
  by_cases h : p.1 = k
  · simp [h]
  · simp [beq_eq_false_iff_ne.mpr h, h]

theorem lookupAssoc_setAssoc {β : Type} (l : List (String × β)) (k k' : String) (v : β) :
    lookupAssoc (setAssoc l k v) k' = if k' = k then some v else lookupAssoc l k' := by
  induction l with
  | nil =>
    show lookupAssoc [(k, v)] k' = _
    rw [lookupAssoc_cons]
    by_cases h : k' = k
    · simp [h]
    · have h2 : ¬ k = k' := fun hh => h hh.symm
      simp [h, h2, lookupAssoc]
  | cons p rest ih =>
    by_cases hpk : p.1 = k
    · have hb : (p.1 == k) = true := beq_iff_eq.mpr hpk
      show lookupAssoc (if p.1 == k then (k, v) :: rest else p :: setAssoc rest k v) k' = _
      rw [hb, if_pos rfl, lookupAssoc_cons, lookupAssoc_cons]
      by_cases h : k' = k
      · simp [h]
      · have h2 : ¬ k = k' := fun hh => h hh.symm
        have hpk' : ¬ p.1 = k' := fun hh => h (hpk ▸ hh.symm)
        simp [h, h2, hpk']
    · have hb : (p.1 == k) = false := beq_eq_false_iff_ne.mpr hpk
      show lookupAssoc (if p.1 == k then (k, v) :: rest else p :: setAssoc rest k v) k' = _
      rw [hb]
      simp only [Bool.false_eq_true, if_false]
      rw [lookupAssoc_cons, lookupAssoc_cons, ih]
      by_cases hp' : p.1 = k'
      · have h : ¬ k' = k := fun hh => hpk (hp'.trans hh)
        simp [hp', h]
      · simp [hp']

theorem lookupAssoc_eraseAssoc {β : Type} (l : List (String × β)) (k k' : String) :
    lookupAssoc (eraseAssoc l k) k' = if k' = k then none else lookupAssoc l k' := by
  induction l with
  | nil =>
    by_cases h : k' = k <;> simp [eraseAssoc, lookupAssoc, h]
  | cons p rest ih =>
    unfold eraseAssoc at ih ⊢
    rw [List.filter_cons]
    by_cases hpk : p.1 = k
    · have hb : (p.1 != k) = false := by simp [bne, hpk]
      rw [hb]
      simp only [Bool.false_eq_true, if_false]
      rw [ih, lookupAssoc_cons]
      by_cases h : k' = k
      · simp [h]
      · have hp' : ¬ p.1 = k' := fun hh => h (hpk ▸ hh.symm)
        simp [h, hp']
    · have hb : (p.1 != k) = true := bne_iff_ne.mpr hpk
      rw [hb]
      simp only [if_true]
      rw [lookupAssoc_cons, lookupAssoc_cons, ih]
      by_cases hp' : p.1 = k'
      · have h : ¬ k' = k := fun hh => hpk (hp'.trans hh)
        simp [hp', h]
      · simp [hp']

theorem idsAt_setAssoc (b : Bucket) (k k' : String) (ids : List String) :
    idsAt (setAssoc b k ids) k' = if k' = k then ids else idsAt b k' := by
  by_cases h : k' = k <;> simp [idsAt, lookupAssoc_setAssoc, h]

theorem mem_idsAt_bucketAdd (b : Bucket) (k id k' id' : String) :
    id' ∈ idsAt (bucketAdd b k id) k' ↔
      id' ∈ idsAt b k' ∨ (k' = k ∧ id' = id) := by
  unfold bucketAdd
  by_cases hmem : id ∈ idsAt b k
  · simp only [if_pos hmem]
    constructor
    · exact fun h => Or.inl h
    · rintro (h | ⟨hk, hid⟩)
      · exact h
      · subst hk; subst hid; exact hmem
  · simp only [if_neg hmem, idsAt_setAssoc]
    by_cases hk : k' = k
    · subst hk
      rw [if_pos rfl]
      constructor
      · intro h
        rcases List.mem_append.mp h with h1 | h1
        · exact Or.inl h1
        · exact Or.inr ⟨rfl, List.mem_singleton.mp h1⟩
      · rintro (h1 | ⟨_, h1⟩)
        · exact List.mem_append.mpr (Or.inl h1)
        · exact List.mem_append.mpr (Or.inr (List.mem_singleton.mpr h1))
    · simp [hk]

theorem mem_idsAt_bucketRemove (b : Bucket) (k id k' id' : String) :
    id' ∈ idsAt (bucketRemove b k id) k' ↔
      id' ∈ idsAt b k' ∧ ¬(k' = k ∧ id' = id) := by
  unfold bucketRemove
  cases hlk : lookupAssoc b k with
  | none =>
    have hempty : idsAt b k = [] := by simp [idsAt, hlk]
    constructor
    · intro h
      refine ⟨h, ?_⟩
      rintro ⟨hk, _⟩
      subst hk
      rw [hempty] at h
      exact absurd h (List.not_mem_nil id')
    · exact fun h => h.1
  | some ids =>
    have hids : idsAt b k = ids := by simp [idsAt, hlk]
    by_cases hmem : id ∈ ids
    · simp only [if_pos hmem]
      by_cases hempt : (ids.filter (fun x => x != id)).isEmpty
      · simp only [if_pos hempt]
        have hall : ∀ x ∈ ids, x = id := by
          intro x hx
          by_contra hne
          have hxin : x ∈ ids.filter (fun y => y != id) :=
            List.mem_filter.mpr ⟨hx, bne_iff_ne.mpr hne⟩
          rw [List.isEmpty_iff] at hempt
          rw [hempt] at hxin
          exact absurd hxin (List.not_mem_nil x)
        have herase : idsAt (eraseAssoc b k) k' = if k' = k then [] else idsAt b k' := by
          by_cases h : k' = k <;> simp [idsAt, lookupAssoc_eraseAssoc, h]
        rw [herase]
        by_cases hk : k' = k
        · subst hk
          rw [if_pos rfl]
          constructor
          · intro h; exact absurd h (List.not_mem_nil id')
          · rintro ⟨h1, h2⟩
            rw [hids] at h1
            exact absurd ⟨rfl, hall id' h1⟩ h2
        · simp [hk]
      · simp only [if_neg hempt, idsAt_setAssoc]
        by_cases hk : k' = k
        · subst hk
          rw [if_pos rfl]
          constructor
          · intro h
            have h2 := List.mem_filter.mp h
            refine ⟨by rw [hids]; exact h2.1, ?_⟩
            rintro ⟨_, hid⟩
            exact (bne_iff_ne.mp h2.2) hid
          · rintro ⟨h1, h2⟩
            rw [hids] at h1
            refine List.mem_filter.mpr ⟨h1, bne_iff_ne.mpr ?_⟩
            intro hid
            exact h2 ⟨rfl, hid⟩
        · simp [hk]
    · simp only [if_neg hmem]
      constructor
      · intro h
        refine ⟨h, ?_⟩
        rintro ⟨hk, hid⟩
        subst hk; subst hid
        rw [hids] at h
        exact hmem h
      · exact fun h => h.1

theorem bucketOf_setAssoc (idx : Idx) (F F' : String) (b : Bucket) :
    bucketOf (setAssoc idx F b) F' = if F' = F then b else bucketOf idx F' := by
  by_cases h : F' = F <;> simp [bucketOf, lookupAssoc_setAssoc, h]

theorem mem_findIdsS_updateIndexS (idx : Idx) (F k id F' k' id' : String) :
    id' ∈ findIdsS (updateIndexS idx F k id) F' k' ↔
      id' ∈ findIdsS idx F' k' ∨ (F' = F ∧ k' = k ∧ id' = id) := by
  unfold findIdsS updateIndexS
  rw [bucketOf_setAssoc]
  by_cases h : F' = F
  · subst h
    rw [if_pos rfl, mem_idsAt_bucketAdd]
    tauto
  · simp [h]

theorem mem_findIdsS_removeFromIndexS (idx : Idx) (F k id F' k' id' : String) :
    id' ∈ findIdsS (removeFromIndexS idx F k id) F' k' ↔
      id' ∈ findIdsS idx F' k' ∧ ¬(F' = F ∧ k' = k ∧ id' = id) := by
  unfold removeFromIndexS
  cases hlk : lookupAssoc idx F with
  | none =>
    have hempty : findIdsS idx F k' = [] := by
      unfold findIdsS bucketOf
      rw [hlk]
      simp [idsAt, lookupAssoc]
    constructor
    · intro h
      refine ⟨h, ?_⟩
      rintro ⟨hF, _, _⟩
      subst hF
      rw [hempty] at h
      exact absurd h (List.not_mem_nil id')
    · exact fun h => h.1
  | some b =>
    have hb : bucketOf idx F = b := by simp [bucketOf, hlk]
    unfold findIdsS
    rw [bucketOf_setAssoc]
    by_cases h : F' = F
    · subst h
      rw [if_pos rfl, mem_idsAt_bucketRemove, hb]
      tauto
    · simp [h]

theorem getF_cons (p : String × Value) (rest : Record) (k : String) :
    getF (p :: rest) k = if p.1 = k then some p.2 else getF rest k := by
  unfold getF
  rw [List.find?_cons]
  by_cases h : p.1 = k
  · simp [h]
  · simp [beq_eq_false_iff_ne.mpr h, h]

theorem getF_setF (r : Record) (k : String) (v : Value) (k' : String) :
    getF (setF r k v) k' = if k' = k then some v else getF r k' := by
  induction r with
  | nil =>
    show getF [(k, v)] k' = _
    rw [getF_cons]
    by_cases h : k' = k
    · simp [h]
    · have h2 : ¬ k = k' := fun hh => h hh.symm
      simp [h, h2, getF]
  | cons p rest ih =>
    by_cases hpk : p.1 = k
    · have hb : (p.1 == k) = true := beq_iff_eq.mpr hpk
      show getF (if p.1 == k then (k, v) :: rest else p :: setF rest k v) k' = _
      rw [hb, if_pos rfl, getF_cons, getF_cons]
      by_cases h : k' = k
      · simp [h]
      · have h2 : ¬ k = k' := fun hh => h hh.symm
        have hpk' : ¬ p.1 = k' := fun hh => h (hpk ▸ hh.symm)
        simp [h, h2, hpk']
    · have hb : (p.1 == k) = false := beq_eq_false_iff_ne.mpr hpk
      show getF (if p.1 == k then (k, v) :: rest else p :: setF rest k v) k' = _
      rw [hb]
      simp only [Bool.false_eq_true, if_false]
      rw [getF_cons, getF_cons, ih]
      by_cases hp' : p.1 = k'
      · have h : ¬ k' = k := fun hh => hpk (hp'.trans hh)
        simp [hp', h]
      · simp [hp']

theorem idOf_setF_id (r : Record) (s : String) :
    idOf (setF r "id" (Value.vStr s)) = s := by
  simp [idOf, getF_setF, valKey]

theorem getF_mergeRecord_id (old patch : Record) :
    getF (mergeRecord old patch) "id" = some ((getF old "id").getD Value.vUndef) := by
  simp [mergeRecord, getF_setF]

theorem idOf_mergeRecord (old patch : Record) :
    idOf (mergeRecord old patch) = idOf old := by
  rw [idOf, getF_mergeRecord_id]
  cases h : getF old "id" with
  | none => simp [idOf, h, valKey]
  | some v => simp [idOf, h]

theorem mem_findIdsS_applyAddIndexes (rec : Record) (rid : String) (flds : List String)
    (idx : Idx) (F k id : String) :
    id ∈ findIdsS (applyAddIndexes rec rid flds idx) F k ↔
      id ∈ findIdsS idx F k ∨
        (F ∈ flds ∧ ∃ v, getF rec F = some v ∧ k = valKey v ∧ id = rid) := by
  induction flds generalizing idx with
  | nil => simp [applyAddIndexes]
  | cons G rest ih =>
    have hstep : applyAddIndexes rec rid (G :: rest) idx
        = applyAddIndexes rec rid rest
            (match getF rec G with
             | some v => updateIndexS idx G (valKey v) rid
             | none => idx) := by
      rfl
    rw [hstep, ih]
    cases hG : getF rec G with
    | none =>
      constructor
      · rintro (h | ⟨hmem, v, hv, hk, hid⟩)
        · exact Or.inl h
        · refine Or.inr ⟨List.mem_cons_of_mem G hmem, v, hv, hk, hid⟩
      · rintro (h | ⟨hmem, v, hv, hk, hid⟩)
        · exact Or.inl h
        · rcases List.mem_cons.mp hmem with hFG | hmem2
          · subst hFG
            rw [hG] at hv
            exact absurd hv (by simp)
          · exact Or.inr ⟨hmem2, v, hv, hk, hid⟩
    | some v =>
      rw [mem_findIdsS_updateIndexS]
      constructor
      · rintro ((h | ⟨hF, hk, hid⟩) | ⟨hmem, w, hw, hk, hid⟩)
        · exact Or.inl h
        · refine Or.inr ⟨by rw [hF]; exact List.mem_cons_self G rest, v, ?_, hk, hid⟩
          rw [hF]; exact hG
        · exact Or.inr ⟨List.mem_cons_of_mem G hmem, w, hw, hk, hid⟩
      · rintro (h | ⟨hmem, w, hw, hk, hid⟩)
        · exact Or.inl (Or.inl h)
        · rcases List.mem_cons.mp hmem with hFG | hmem2
          · rw [hFG] at hw
            rw [hG] at hw
            cases hw
            exact Or.inl (Or.inr ⟨hFG, hk, hid⟩)
          · exact Or.inr ⟨hmem2, w, hw, hk, hid⟩

theorem mem_findIdsS_applyRemoveIndexes (rec : Record) (rid : String) (flds : List String)
    (idx : Idx) (F k id : String) :
    id ∈ findIdsS (applyRemoveIndexes rec rid flds idx) F k ↔
      id ∈ findIdsS idx F k ∧
        ¬(F ∈ flds ∧ ∃ v, getF rec F = some v ∧ k = valKey v ∧ id = rid) := by
  induction flds generalizing idx with
  | nil => simp [applyRemoveIndexes]
  | cons G rest ih =>
    have hstep : applyRemoveIndexes rec rid (G :: rest) idx
        = applyRemoveIndexes rec rid rest
            (match getF rec G with
             | some v => removeFromIndexS idx G (valKey v) rid
             | none => idx) := by
      rfl
    rw [hstep, ih]
    cases hG : getF rec G with
    | none =>
      constructor
      · rintro ⟨h, hnc⟩
        refine ⟨h, ?_⟩
        rintro ⟨hmem, v, hv, hk, hid⟩
        rcases List.mem_cons.mp hmem with hFG | hmem2
        · subst hFG
          rw [hG] at hv
          exact absurd hv (by simp)
        · exact hnc ⟨hmem2, v, hv, hk, hid⟩
      · rintro ⟨h, hnc⟩
        refine ⟨h, ?_⟩
        rintro ⟨hmem2, v, hv, hk, hid⟩
        exact hnc ⟨List.mem_cons_of_mem G hmem2, v, hv, hk, hid⟩
    | some v =>
      rw [mem_findIdsS_removeFromIndexS]
      constructor
      · rintro ⟨⟨h, hnc1⟩, hnc2⟩
        refine ⟨h, ?_⟩
        rintro ⟨hmem, w, hw, hk, hid⟩
        rcases List.mem_cons.mp hmem with hFG | hmem2
        · rw [hFG] at hw
          rw [hG] at hw
          cases hw
          exact hnc1 ⟨hFG, hk, hid⟩
        · exact hnc2 ⟨hmem2, w, hw, hk, hid⟩
      · rintro ⟨h, hnc⟩
        refine ⟨⟨h, ?_⟩, ?_⟩
        · rintro ⟨hF, hk, hid⟩
          refine hnc ⟨by rw [hF]; exact List.mem_cons_self G rest, v, ?_, hk, hid⟩
          rw [hF]; exact hG
        · rintro ⟨hmem2, w, hw, hk, hid⟩
          exact hnc ⟨List.mem_cons_of_mem G hmem2, w, hw, hk, hid⟩

theorem mem_idsAt_rebuildField_aux (recs : List Record) (F : String) (b : Bucket)
    (k id : String) :
    id ∈ idsAt (recs.foldl (fun b r =>
      match recContrib r F with
      | some (k2, id2) => bucketAdd b k2 id2
      | none => b) b) k ↔
      id ∈ idsAt b k ∨ ∃ r ∈ recs, recContrib r F = some (k, id) := by
  induction recs generalizing b with
  | nil => simp
  | cons r rest ih =>
    rw [List.foldl_cons, ih]
    cases hc : recContrib r F with
    | none =>
      constructor
      · rintro (h | ⟨r2, hr2, hc2⟩)
        · exact Or.inl h
        · exact Or.inr ⟨r2, List.mem_cons_of_mem r hr2, hc2⟩
      · rintro (h | ⟨r2, hr2, hc2⟩)
        · exact Or.inl h
        · rcases List.mem_cons.mp hr2 with hrr | hr3
          · rw [hrr, hc] at hc2
            exact absurd hc2 (by simp)
          · exact Or.inr ⟨r2, hr3, hc2⟩
    | some p =>
      rw [mem_idsAt_bucketAdd]
      constructor
      · rintro ((h | ⟨hk, hid⟩) | ⟨r2, hr2, hc2⟩)
        · exact Or.inl h
        · subst hk; subst hid
          exact Or.inr ⟨r, List.mem_cons_self r rest, hc⟩
        · exact Or.inr ⟨r2, List.mem_cons_of_mem r hr2, hc2⟩
      · rintro (h | ⟨r2, hr2, hc2⟩)
        · exact Or.inl (Or.inl h)
        · rcases List.mem_cons.mp hr2 with hrr | hr3
          · subst hrr
            rw [hc] at hc2
            cases hc2
            exact Or.inl (Or.inr ⟨rfl, rfl⟩)
          · exact Or.inr ⟨r2, hr3, hc2⟩

theorem mem_idsAt_rebuildField (recs : List Record) (F : String) (k id : String) :
    id ∈ idsAt (rebuildField recs F) k ↔ ∃ r ∈ recs, recContrib r F = some (k, id) := by
  unfold rebuildField
  rw [mem_idsAt_rebuildField_aux]
  simp [idsAt, lookupAssoc]

theorem bucketOf_rebuildIndexS (recs : List Record) (flds : List String) (idx : Idx)
    (F : String) :
    bucketOf (rebuildIndexS recs flds idx) F =
      if F ∈ flds then rebuildField recs F else bucketOf idx F := by
  induction flds generalizing idx with
  | nil => simp [rebuildIndexS]
  | cons G rest ih =>
    have hstep : rebuildIndexS recs (G :: rest) idx
        = rebuildIndexS recs rest (setAssoc idx G (rebuildField recs G)) := rfl
    rw [hstep, ih, bucketOf_setAssoc]
    by_cases hFr : F ∈ rest
    · simp [hFr, List.mem_cons]
    · by_cases hFG : F = G
      · subst hFG
        simp [hFr]
      · simp [hFr, hFG, List.mem_cons]

/-- IdStr states that every record of a collection carries a string id,
as every record written by the store operations does. -/
def IdStr (recs : List Record) : Prop :=
  ∀ r ∈ recs, ∃ s, getF r "id" = some (Value.vStr s)

/-- IdxInv is the exact index characterization maintained by the store:
an index lookup returns an id exactly when some record with that
stringified id holds the field with a value stringifying to the key. -/
def IdxInv (flds : List String) (recs : List Record) (idx : Idx) : Prop :=
  ∀ F ∈ flds, ∀ k id, id ∈ findIdsS idx F k ↔
    ∃ r ∈ recs, idOf r = id ∧ ∃ v, getF r F = some v ∧ valKey v = k

/-- Inv is the inductive invariant for index consistency: string ids,
pairwise distinct stringified ids, and the exact index characterization. -/
def Inv (flds : List String) (st : St) : Prop :=
  IdStr (recsOf st) ∧ ((recsOf st).map idOf).Nodup ∧ IdxInv flds (recsOf st) st.index

theorem idOf_of_idStr {r : Record} {s : String} (h : getF r "id" = some (Value.vStr s)) :
    idOf r = s := by
  simp [idOf, h, valKey]

theorem recContrib_of_idStr {r : Record} {s : String}
    (h : getF r "id" = some (Value.vStr s)) (F : String) :
    recContrib r F = (getF r F).map (fun v => (valKey v, s)) := by
  unfold recContrib
  rw [h]
  cases getF r F with
  | none => rfl
  | some v => simp [valKey]

theorem idxInv_rebuild (flds : List String) (recs : List Record) (idx : Idx)
    (hstr : IdStr recs) :
    IdxInv flds recs (rebuildIndexS recs flds idx) := by
  intro F hF k id
  unfold findIdsS
  rw [bucketOf_rebuildIndexS, if_pos hF, mem_idsAt_rebuildField]
  constructor
  · rintro ⟨r, hr, hc⟩
    obtain ⟨s, hs⟩ := hstr r hr
    rw [recContrib_of_idStr hs] at hc
    cases hv : getF r F with
    | none => rw [hv] at hc; exact absurd hc (by simp)
    | some v =>
      rw [hv] at hc
      have hmap : Option.map (fun v => (valKey v, s)) (some v) = some (valKey v, s) := rfl
      rw [hmap] at hc
      have hc2 : (valKey v, s) = (k, id) := Option.some.inj hc
      have hk2 : valKey v = k := congrArg Prod.fst hc2
      have hid2 : s = id := congrArg Prod.snd hc2
      exact ⟨r, hr, by rw [← hid2]; exact idOf_of_idStr hs, v, hv, hk2⟩
  · rintro ⟨r, hr, hid, v, hv, hk⟩
    obtain ⟨s, hs⟩ := hstr r hr
    refine ⟨r, hr, ?_⟩
    rw [recContrib_of_idStr hs, hv]
    have hsid : s = id := by rw [← hid, idOf_of_idStr hs]
    simp [hk, hsid]

theorem assignIds_facts (gen : Nat → String) :
    ∀ (recs : List Record) (c : Nat) (out : List Record),
      assignIds gen c recs = Except.ok out →
      IdStr out ∧ out.length = recs.length := by
  intro recs
  induction recs with
  | nil =>
    intro c out h
    cases h
    exact ⟨fun r hr => absurd hr (List.not_mem_nil r), rfl⟩
  | cons r rest ih =>
    intro c out h
    cases hid : getF r "id" with
    | some v =>
      simp only [assignIds, hid] at h
      by_cases hnv : v = Value.vNull ∨ v = Value.vUndef
      · rw [if_pos hnv] at h
        cases hrec : assignIds gen (c + 1) rest with
        | error e => rw [hrec] at h; cases h
        | ok out2 =>
          rw [hrec] at h
          cases h
          obtain ⟨h1, h2⟩ := ih (c + 1) out2 hrec
          refine ⟨?_, by simp [h2]⟩
          intro r2 hr2
          rcases List.mem_cons.mp hr2 with hr3 | hr3
          · exact ⟨gen c, by rw [hr3, getF_setF, if_pos rfl]⟩
          · exact h1 r2 hr3
      · rw [if_neg hnv] at h
        by_cases hempty : valKey v = ""
        · rw [if_pos hempty] at h; cases h
        · rw [if_neg hempty] at h
          cases hrec : assignIds gen c rest with
          | error e => rw [hrec] at h; cases h
          | ok out2 =>
            rw [hrec] at h
            cases h
            obtain ⟨h1, h2⟩ := ih c out2 hrec
            refine ⟨?_, by simp [h2]⟩
            intro r2 hr2
            rcases List.mem_cons.mp hr2 with hr3 | hr3
            · exact ⟨valKey v, by rw [hr3, getF_setF, if_pos rfl]⟩
            · exact h1 r2 hr3
    | none =>
      simp only [assignIds, hid] at h
      cases hrec : assignIds gen (c + 1) rest with
      | error e => rw [hrec] at h; cases h
      | ok out2 =>
        rw [hrec] at h
        cases h
        obtain ⟨h1, h2⟩ := ih (c + 1) out2 hrec
        refine ⟨?_, by simp [h2]⟩
        intro r2 hr2
        rcases List.mem_cons.mp hr2 with hr3 | hr3
        · exact ⟨gen c, by rw [hr3, getF_setF, if_pos rfl]⟩
        · exact h1 r2 hr3

theorem normalizeIds_facts :
    ∀ (recs out : List Record), normalizeIds recs = Except.ok out →
      out.map idOf = recs.map idOf ∧
      ((∀ r ∈ recs, ∃ v, getF r "id" = some v ∧ v ≠ Value.vNull ∧ v ≠ Value.vUndef) →
        IdStr out) := by
  intro recs
  induction recs with
  | nil =>
    intro out h
    cases h
    exact ⟨rfl, fun _ r hr => absurd hr (List.not_mem_nil r)⟩
  | cons r rest ih =>
    intro out h
    cases hid : getF r "id" with
    | some v =>
      simp only [normalizeIds, hid] at h
      by_cases hnv : v = Value.vNull ∨ v = Value.vUndef
      · rw [if_pos hnv] at h
        cases hrec : normalizeIds rest with
        | error e => rw [hrec] at h; cases h
        | ok out2 =>
          rw [hrec] at h
          cases h
          obtain ⟨h1, h2⟩ := ih out2 hrec
          constructor
          · simp [h1]
          · intro hwf
            obtain ⟨w, hw1, hw2, hw3⟩ := hwf r (List.mem_cons_self r rest)
            rw [hid] at hw1
            cases hw1
            rcases hnv with hnv | hnv
            · exact absurd hnv hw2
            · exact absurd hnv hw3
      · rw [if_neg hnv] at h
        by_cases hempty : valKey v = ""
        · rw [if_pos hempty] at h; cases h
        · rw [if_neg hempty] at h
          cases hrec : normalizeIds rest with
          | error e => rw [hrec] at h; cases h
          | ok out2 =>
            rw [hrec] at h
            cases h
            obtain ⟨h1, h2⟩ := ih out2 hrec
            constructor
            · have hio : idOf (setF r "id" (Value.vStr (valKey v))) = idOf r := by
                rw [idOf_setF_id, idOf, hid]
              simp [h1, hio]
            · intro hwf
              intro r2 hr2
              rcases List.mem_cons.mp hr2 with hr3 | hr3
              · exact ⟨valKey v, by rw [hr3, getF_setF, if_pos rfl]⟩
              · exact h2 (fun x hx => hwf x (List.mem_cons_of_mem r hx)) r2 hr3
    | none =>
      simp only [normalizeIds, hid] at h
      cases hrec : normalizeIds rest with
      | error e => rw [hrec] at h; cases h
      | ok out2 =>
        rw [hrec] at h
        cases h
        obtain ⟨h1, h2⟩ := ih out2 hrec
        constructor
        · simp [h1]
        · intro hwf
          obtain ⟨w, hw1, _⟩ := hwf r (List.mem_cons_self r rest)
          rw [hid] at hw1
          cases hw1

theorem nodup_of_hasDupIds_false {ids : List String} (h : hasDupIds ids = false) :
    ids.Nodup := by
  unfold hasDupIds at h
  have hlen : ids.dedup.length = ids.length := by
    have := bne_eq_false_iff_eq.mp h
    exact this
  have hsub : ids.dedup.Sublist ids := List.dedup_sublist ids
  have heq : ids.dedup = ids := hsub.eq_of_length hlen
  rw [← heq]
  exact List.nodup_dedup ids

theorem find?_eq_some_of_nodup {l : List Record} {r : Record} {rid : String}
    (hnd : (l.map idOf).Nodup) (hr : r ∈ l) (hid : idOf r = rid) :
    l.find? (fun x => idOf x == rid) = some r := by
  induction l with
  | nil => exact absurd hr (List.not_mem_nil r)
  | cons h0 rest ih =>
    have hnd2 : idOf h0 ∉ rest.map idOf ∧ (rest.map idOf).Nodup := by
      rw [List.map_cons, List.nodup_cons] at hnd
      exact hnd
    rw [List.find?_cons]
    by_cases hh : idOf h0 = rid
    · have hb : (idOf h0 == rid) = true := beq_iff_eq.mpr hh
      rw [hb]
      rcases List.mem_cons.mp hr with hr2 | hr2
      · rw [hr2]
      · exfalso
        have hmem : rid ∈ rest.map idOf := by
          rw [← hid]
          exact List.mem_map_of_mem idOf hr2
        rw [hh] at hnd2
        exact hnd2.1 hmem
    · have hb : (idOf h0 == rid) = false := beq_eq_false_iff_ne.mpr hh
      rw [hb]
      rcases List.mem_cons.mp hr with hr2 | hr2
      · exact absurd (hr2 ▸ hid) hh
      · exact ih hnd2.2 hr2

theorem replaceFirst_decomp {p : Record → Bool} {l : List Record} {old : Record}
    (h : l.find? p = some old) (u : Record) :
    ∃ l1 l2, l = l1 ++ old :: l2 ∧ (∀ x ∈ l1, p x = false) ∧
      replaceFirst p u l = l1 ++ u :: l2 := by
  induction l with
  | nil => cases h
  | cons h0 rest ih =>
    rw [List.find?_cons] at h
    cases hp : p h0 with
    | true =>
      rw [hp] at h
      cases h
      exact ⟨[], rest, rfl, by simp, by simp [replaceFirst, hp]⟩
    | false =>
      rw [hp] at h
      obtain ⟨l1, l2, he, hall, hrep⟩ := ih h
      refine ⟨h0 :: l1, l2, by rw [he]; rfl, ?_, ?_⟩
      · intro x hx
        rcases List.mem_cons.mp hx with hx2 | hx2
        · rw [hx2]; exact hp
        · exact hall x hx2
      · simp [replaceFirst, hp, hrep]

theorem idLoop_snd (collides : String → Bool) (gen : Nat → String) :
    ∀ (fuel a : Nat), (idLoop collides gen a fuel).2 = gen (idLoop collides gen a fuel).1 := by
  intro fuel
  induction fuel with
  | zero => intro a; rfl
  | succ f ih =>
    intro a
    unfold idLoop
    by_cases h : collides (gen a) && decide (a < 10)
    · rw [if_pos h]; exact ih (a + 1)
    · rw [if_neg h]

theorem idLoop_fst_le (collides : String → Bool) (gen : Nat → String) :
    ∀ (fuel a : Nat), a ≤ 10 → (idLoop collides gen a fuel).1 ≤ 10 := by
  intro fuel
  induction fuel with
  | zero => intro a ha; exact ha
  | succ f ih =>
    intro a ha
    unfold idLoop
    by_cases h : collides (gen a) && decide (a < 10)
    · rw [if_pos h]
      have ha10 : a < 10 := of_decide_eq_true (Bool.and_elim_right h)
      exact ih (a + 1) ha10
    · rw [if_neg h]; exact ha

theorem idLoop_fresh (collides : String → Bool) (gen : Nat → String) :
    ∀ (fuel a : Nat), (idLoop collides gen a fuel).1 < a + fuel →
      (idLoop collides gen a fuel).1 < 10 →
      collides (gen (idLoop collides gen a fuel).1) = false := by
  intro fuel
  induction fuel with
  | zero =>
    intro a hlt _
    have hres : (idLoop collides gen a 0).1 = a := rfl
    rw [hres] at hlt
    omega
  | succ f ih =>
    intro a hlt h10
    unfold idLoop at hlt h10 ⊢
    by_cases h : collides (gen a) && decide (a < 10)
    · rw [if_pos h] at hlt h10 ⊢
      exact ih (a + 1) (by omega) h10
    · rw [if_neg h] at hlt h10 ⊢
      have hc : (collides (gen a) && decide (a < 10)) = false := Bool.eq_false_iff.mpr h
      rcases Bool.and_eq_false_iff.mp hc with hcf | hd
      · exact hcf
      · exact absurd h10 (of_decide_eq_false hd)

theorem idLoop_all_collide (collides : String → Bool) (gen : Nat → String)
    (hall : ∀ j, j < 10 → collides (gen j) = true) :
    ∀ (fuel a : Nat), a ≤ 10 → 10 - a < fuel →
      idLoop collides gen a fuel = (10, gen 10) := by
  intro fuel
  induction fuel with
  | zero => intro a _ h; exact absurd h (by omega)
  | succ f ih =>
    intro a ha hf
    unfold idLoop
    by_cases h10 : a < 10
    · have hc : collides (gen a) && decide (a < 10) :=
        by rw [hall a h10, decide_eq_true h10]; rfl
      rw [if_pos hc]
      exact ih (a + 1) (by omega) (by omega)
    · have ha10 : a = 10 := by omega
      have hc : (collides (gen a) && decide (a < 10)) = false := by
        rw [decide_eq_false h10, Bool.and_false]
      rw [if_neg (by rw [hc]; exact Bool.false_ne_true)]
      rw [ha10]

theorem idLoop_first_fresh (collides : String → Bool) (gen : Nat → String)
    (j0 : Nat) (hj0 : j0 < 10) (hfresh : collides (gen j0) = false)
    (hbefore : ∀ j, j < j0 → collides (gen j) = true) :
    ∀ (fuel a : Nat), a ≤ j0 → j0 - a < fuel →
      idLoop collides gen a fuel = (j0, gen j0) := by
  intro fuel
  induction fuel with
  | zero => intro a _ h; exact absurd h (by omega)
  | succ f ih =>
    intro a ha hf
    unfold idLoop
    by_cases heq : a = j0
    · subst heq
      have hc : (collides (gen a) && decide (a < 10)) = false := by
        rw [hfresh, Bool.false_and]
      rw [if_neg (by rw [hc]; exact Bool.false_ne_true)]
    · have halt : a < j0 := by omega
      have hc : collides (gen a) && decide (a < 10) := by
        rw [hbefore a halt, decide_eq_true (by omega : a < 10)]; rfl
      rw [if_pos hc]
      exact ih (a + 1) (by omega) (by omega)

theorem inv_init (flds : List String) : Inv flds ⟨none, [], []⟩ := by
  refine ⟨?_, ?_, ?_⟩
  · intro r hr
    exact absurd hr (List.not_mem_nil r)
  · exact List.nodup_nil
  · intro F _ k id
    constructor
    · intro h
      have hempty : findIdsS ([] : Idx) F k = [] := rfl
      rw [hempty] at h
      exact absurd h (List.not_mem_nil id)
    · rintro ⟨r, hr, _⟩
      exact absurd hr (List.not_mem_nil r)

theorem inv_addAllS (flds : List String) (gen : Nat → String) (recs : List Record)
    (ow : Bool) (st : St) (herr : (addAllS flds gen recs ow st).err = none) :
    Inv flds (addAllS flds gen recs ow st).st := by
  cases hai : assignIds gen 0 recs with
  | error e => simp [addAllS, hai] at herr
  | ok processed =>
    simp only [addAllS, hai] at herr ⊢
    by_cases hdup : hasDupIds (processed.map idOf) = true
    · rw [if_pos hdup] at herr
      simp at herr
    · rw [if_neg hdup] at herr ⊢
      by_cases hex : (st.file.isSome && !ow) = true
      · rw [if_pos hex] at herr
        simp at herr
      · rw [if_neg hex]
        have hstr := (assignIds_facts gen recs 0 processed hai).1
        refine ⟨hstr, ?_, ?_⟩
        · exact nodup_of_hasDupIds_false (Bool.eq_false_iff.mpr hdup)
        · exact idxInv_rebuild flds processed st.index hstr

theorem inv_editAllS (flds : List String) (recs : List Record) (st : St)
    (hwf : WfIds recs) (herr : (editAllS flds recs st).err = none) :
    Inv flds (editAllS flds recs st).st := by
  cases hni : normalizeIds recs with
  | error e => simp [editAllS, hni] at herr
  | ok written =>
    simp only [editAllS, hni]
    obtain ⟨hmap, hstr⟩ := normalizeIds_facts recs written hni
    have hstr2 := hstr hwf.1
    refine ⟨hstr2, ?_, ?_⟩
    · show (written.map idOf).Nodup
      rw [hmap]
      exact hwf.2
    · exact idxInv_rebuild flds written st.index hstr2

theorem addRecordByIdS_gen_fail (flds : List String) (gen : Nat → String)
    (newRecord : Record) (st : St) (a : Nat) (t : String)
    (hgen : getF newRecord "id" = none ∨ getF newRecord "id" = some Value.vNull ∨
      getF newRecord "id" = some Value.vUndef)
    (hp : idLoop (fun s => (recsOf st).any fun r => idOf r == s) gen 0 11 = (a, t))
    (ha : a ≥ 10) :
    addRecordByIdS flds gen newRecord st =
      ⟨st, [Event.beforeAddId, Event.errorAddId], some ErrCode.operationFailed⟩ := by
  unfold addRecordByIdS
  rw [if_pos hgen, hp]
  show (if a ≥ 10 then _ else _) = _
  rw [if_pos ha]

theorem addRecordByIdS_gen_ok (flds : List String) (gen : Nat → String)
    (newRecord : Record) (st : St) (a : Nat) (t : String)
    (hgen : getF newRecord "id" = none ∨ getF newRecord "id" = some Value.vNull ∨
      getF newRecord "id" = some Value.vUndef)
    (hp : idLoop (fun s => (recsOf st).any fun r => idOf r == s) gen 0 11 = (a, t))
    (ha : ¬ a ≥ 10) :
    addRecordByIdS flds gen newRecord st =
      ⟨⟨some (recsOf st ++ [setF newRecord "id" (Value.vStr t)]),
        applyAddIndexes (setF newRecord "id" (Value.vStr t)) t flds st.index, []⟩,
        [Event.beforeAddId, Event.afterAddId], none⟩ := by
  unfold addRecordByIdS
  rw [if_pos hgen, hp]
  show (if a ≥ 10 then _ else _) = _
  rw [if_neg ha]

theorem addRecordByIdS_supplied_exists (flds : List String) (gen : Nat → String)
    (newRecord : Record) (st : St) (v : Value)
    (hv : getF newRecord "id" = some v) (hnn : v ≠ Value.vNull) (hnu : v ≠ Value.vUndef)
    (hne : ¬ valKey v = "")
    (hcol : ((recsOf st).any fun r => idOf r == valKey v) = true) :
    addRecordByIdS flds gen newRecord st =
      ⟨st, [Event.beforeAddId, Event.errorAddId], some ErrCode.recordExists⟩ := by
  unfold addRecordByIdS
  have hgen : ¬ (getF newRecord "id" = none ∨ getF newRecord "id" = some Value.vNull ∨
      getF newRecord "id" = some Value.vUndef) := by
    rw [hv]
    rintro (h | h | h)
    · cases h
    · exact hnn (Option.some.inj h)
    · exact hnu (Option.some.inj h)
  rw [if_neg hgen, hv]
  show (if valKey v = "" then _ else _) = _
  rw [if_neg hne, if_pos hcol]

theorem addRecordByIdS_supplied_ok (flds : List String) (gen : Nat → String)
    (newRecord : Record) (st : St) (v : Value)
    (hv : getF newRecord "id" = some v) (hnn : v ≠ Value.vNull) (hnu : v ≠ Value.vUndef)
    (hne : ¬ valKey v = "")
    (hcol : ((recsOf st).any fun r => idOf r == valKey v) = false) :
    addRecordByIdS flds gen newRecord st =
      ⟨⟨some (recsOf st ++ [setF newRecord "id" (Value.vStr (valKey v))]),
        applyAddIndexes (setF newRecord "id" (Value.vStr (valKey v))) (valKey v) flds st.index,
        []⟩, [Event.beforeAddId, Event.afterAddId], none⟩ := by
  unfold addRecordByIdS
  have hgen : ¬ (getF newRecord "id" = none ∨ getF newRecord "id" = some Value.vNull ∨
      getF newRecord "id" = some Value.vUndef) := by
    rw [hv]
    rintro (h | h | h)
    · cases h
    · exact hnn (Option.some.inj h)
    · exact hnu (Option.some.inj h)
  rw [if_neg hgen, hv]
  show (if valKey v = "" then _ else _) = _
  rw [if_neg hne,
    if_neg (show ¬ ((recsOf st).any fun r => idOf r == valKey v) = true by
      rw [hcol]; exact Bool.false_ne_true)]

theorem editRecordByIdS_found (flds : List String) (rid : String) (patch : Record)
    (st : St) (old : Record) (hrid : ¬ rid = "")
    (hfind : (recsOf st).find? (fun r => idOf r == rid) = some old) :
    editRecordByIdS flds rid patch st =
      ⟨⟨some (replaceFirst (fun r => idOf r == rid) (mergeRecord old patch) (recsOf st)),
        applyAddIndexes (mergeRecord old patch) rid flds
          (applyRemoveIndexes old rid flds st.index), []⟩,
        [Event.beforeEditId, Event.afterEditId], none⟩ := by
  unfold editRecordByIdS
  rw [if_neg hrid, hfind]

theorem editRecordByIdS_notFound (flds : List String) (rid : String) (patch : Record)
    (st : St) (hrid : ¬ rid = "")
    (hfind : (recsOf st).find? (fun r => idOf r == rid) = none) :
    editRecordByIdS flds rid patch st =
      ⟨st, [Event.beforeEditId, Event.errorEditId], some ErrCode.recordNotFound⟩ := by
  unfold editRecordByIdS
  rw [if_neg hrid, hfind]

theorem deleteRecordByIdS_found (flds : List String) (rid : String) (st : St)
    (rec : Record) (hrid : ¬ rid = "")
    (hlen : (((recsOf st).filter (fun r => idOf r != rid)).length == (recsOf st).length)
      = false)
    (hfind : (recsOf st).find? (fun r => idOf r == rid) = some rec) :
    deleteRecordByIdS flds rid st =
      ⟨⟨some ((recsOf st).filter (fun r => idOf r != rid)),
        applyRemoveIndexes rec rid flds st.index, []⟩,
        [Event.beforeDeleteId, Event.afterDeleteId], none⟩ := by
  unfold deleteRecordByIdS
  rw [if_neg hrid, if_neg (by rw [hlen]; exact Bool.false_ne_true), hfind]

theorem inv_addRecordByIdS (flds : List String) (gen : Nat → String)
    (newRecord : Record) (st : St) (hinv : Inv flds st)
    (herr : (addRecordByIdS flds gen newRecord st).err = none) :
    Inv flds (addRecordByIdS flds gen newRecord st).st := by
  obtain ⟨hstr, hnd, hidx⟩ := hinv
  have happend : ∀ (t : String),
      ((recsOf st).any fun r => idOf r == t) = false →
      Inv flds ⟨some (recsOf st ++ [setF newRecord "id" (Value.vStr t)]),
        applyAddIndexes (setF newRecord "id" (Value.vStr t)) t flds st.index, []⟩ := by
    intro t hfree
    have hfresh : ∀ r ∈ recsOf st, idOf r ≠ t := by
      intro r hr hc
      have := List.any_eq_false.mp hfree r hr
      exact this (beq_iff_eq.mpr hc)
    have hid2 : idOf (setF newRecord "id" (Value.vStr t)) = t := idOf_setF_id newRecord t
    refine ⟨?_, ?_, ?_⟩
    · intro r hr
      rcases List.mem_append.mp hr with hr2 | hr2
      · exact hstr r hr2
      · rw [List.mem_singleton.mp hr2]
        exact ⟨t, by rw [getF_setF, if_pos rfl]⟩
    · show ((recsOf st ++ [setF newRecord "id" (Value.vStr t)]).map idOf).Nodup
      rw [List.map_append]
      rw [List.nodup_append]
      refine ⟨hnd, by simp, ?_⟩
      intro x hx hx2
      simp only [List.map_cons, List.map_nil, hid2] at hx2
      obtain ⟨r, hr, hrx⟩ := List.mem_map.mp hx
      rcases List.mem_singleton.mp hx2 with hxt
      exact hfresh r hr (by rw [hrx, hxt])
    · intro F hF k id
      show id ∈ findIdsS (applyAddIndexes (setF newRecord "id" (Value.vStr t)) t flds
        st.index) F k ↔ _
      rw [mem_findIdsS_applyAddIndexes]
      constructor
      · rintro (hm | ⟨_, v, hv, hk, hidt⟩)
        · obtain ⟨r, hr, hid3, v, hv, hk⟩ := (hidx F hF k id).mp hm
          exact ⟨r, List.mem_append.mpr (Or.inl hr), hid3, v, hv, hk⟩
        · refine ⟨setF newRecord "id" (Value.vStr t),
            List.mem_append.mpr (Or.inr (List.mem_singleton.mpr rfl)), ?_, v, hv, hk.symm⟩
          rw [hid2, hidt]
      · rintro ⟨r, hr, hid3, v, hv, hk⟩
        rcases List.mem_append.mp hr with hr2 | hr2
        · exact Or.inl ((hidx F hF k id).mpr ⟨r, hr2, hid3, v, hv, hk⟩)
        · rw [List.mem_singleton.mp hr2] at hid3 hv
          refine Or.inr ⟨hF, v, hv, hk.symm, ?_⟩
          rw [← hid3, hid2]
  by_cases hgen : getF newRecord "id" = none ∨ getF newRecord "id" = some Value.vNull ∨
      getF newRecord "id" = some Value.vUndef
  · rcases hp : idLoop (fun s => (recsOf st).any fun r => idOf r == s) gen 0 11 with ⟨a, t⟩
    by_cases ha : a ≥ 10
    · rw [addRecordByIdS_gen_fail flds gen newRecord st a t hgen hp ha] at herr
      exact absurd herr (by simp)
    · rw [addRecordByIdS_gen_ok flds gen newRecord st a t hgen hp ha]
      have hsnd := idLoop_snd (fun s => (recsOf st).any fun r => idOf r == s) gen 11 0
      rw [hp] at hsnd
      have hsnd2 : t = gen a := hsnd
      have hfr := idLoop_fresh (fun s => (recsOf st).any fun r => idOf r == s) gen 11 0
      rw [hp] at hfr
      have hfr2 : a < 0 + 11 → a < 10 →
          ((recsOf st).any fun r => idOf r == gen a) = false := hfr
      have hfree : ((recsOf st).any fun r => idOf r == t) = false := by
        rw [hsnd2]
        exact hfr2 (by omega) (by omega)
      exact happend t hfree
  · cases hv : getF newRecord "id" with
    | none => exact absurd (Or.inl hv) hgen
    | some v =>
      have hnn : v ≠ Value.vNull := by
        intro h; exact hgen (Or.inr (Or.inl (by rw [hv, h])))
      have hnu : v ≠ Value.vUndef := by
        intro h; exact hgen (Or.inr (Or.inr (by rw [hv, h])))
      by_cases hne : valKey v = ""
      · have hrun : addRecordByIdS flds gen newRecord st =
            ⟨st, [Event.beforeAddId, Event.errorAddId], some ErrCode.operationFailed⟩ := by
          unfold addRecordByIdS
          rw [if_neg hgen, hv]
          show (if valKey v = "" then _ else _) = _
          rw [if_pos hne]
        rw [hrun] at herr
        exact absurd herr (by simp)
      · cases hcol : ((recsOf st).any fun r => idOf r == valKey v) with
        | true =>
          rw [addRecordByIdS_supplied_exists flds gen newRecord st v hv hnn hnu hne hcol]
            at herr
          exact absurd herr (by simp)
        | false =>
          rw [addRecordByIdS_supplied_ok flds gen newRecord st v hv hnn hnu hne hcol]
          exact happend (valKey v) hcol

theorem inv_editRecordByIdS (flds : List String) (rid : String) (patch : Record)
    (st : St) (hinv : Inv flds st)
    (herr : (editRecordByIdS flds rid patch st).err = none) :
    Inv flds (editRecordByIdS flds rid patch st).st := by
  obtain ⟨hstr, hnd, hidx⟩ := hinv
  by_cases hrid : rid = ""
  · unfold editRecordByIdS at herr
    rw [if_pos hrid] at herr
    exact absurd herr (by simp)
  · cases hfind : (recsOf st).find? (fun r => idOf r == rid) with
    | none =>
      rw [editRecordByIdS_notFound flds rid patch st hrid hfind] at herr
      exact absurd herr (by simp)
    | some old =>
      rw [editRecordByIdS_found flds rid patch st old hrid hfind]
      have hpold : idOf old = rid := by
        have h := List.find?_some hfind
        simp only [beq_iff_eq] at h
        exact h
      have holdmem : old ∈ recsOf st := List.mem_of_find?_eq_some hfind
      obtain ⟨l1, l2, hdata, hl1, hrep⟩ := replaceFirst_decomp hfind (mergeRecord old patch)
      have hidow : idOf (mergeRecord old patch) = rid := by
        rw [idOf_mergeRecord, hpold]
      have hneq : ∀ x, x ∈ l1 ∨ x ∈ l2 → idOf x ≠ rid := by
        have hnd2 := hnd
        rw [hdata, List.map_append, List.map_cons] at hnd2
        have hmid := (List.nodup_cons.mp (List.nodup_middle.mp hnd2)).1
        intro x hx hc
        apply hmid
        rw [hpold, ← hc]
        rcases hx with hx | hx
        · exact List.mem_append.mpr (Or.inl (List.mem_map_of_mem idOf hx))
        · exact List.mem_append.mpr (Or.inr (List.mem_map_of_mem idOf hx))
      refine ⟨?_, ?_, ?_⟩
      · intro r hr
        rw [hrep] at hr
        rcases List.mem_append.mp hr with hr2 | hr2
        · exact hstr r (by rw [hdata]; exact List.mem_append.mpr (Or.inl hr2))
        · rcases List.mem_cons.mp hr2 with hr3 | hr3
          · obtain ⟨s, hs⟩ := hstr old holdmem
            refine ⟨s, ?_⟩
            rw [hr3, getF_mergeRecord_id, hs]
            rfl
          · exact hstr r
              (by rw [hdata]; exact List.mem_append.mpr (Or.inr (List.mem_cons_of_mem _ hr3)))
      · show ((replaceFirst (fun r => idOf r == rid) (mergeRecord old patch)
          (recsOf st)).map idOf).Nodup
        have hmapeq : (replaceFirst (fun r => idOf r == rid) (mergeRecord old patch)
            (recsOf st)).map idOf = (recsOf st).map idOf := by
          rw [hrep, hdata, List.map_append, List.map_cons, List.map_append, List.map_cons,
            hidow, hpold]
        rw [hmapeq]
        exact hnd
      · intro F hF k id
        show id ∈ findIdsS (applyAddIndexes (mergeRecord old patch) rid flds
          (applyRemoveIndexes old rid flds st.index)) F k ↔ _
        rw [mem_findIdsS_applyAddIndexes, mem_findIdsS_applyRemoveIndexes]
        by_cases hidr : id = rid
        · subst hidr
          constructor
          · rintro (⟨hm, hnrc⟩ | ⟨_, v, hv, hk, _⟩)
            · exfalso
              obtain ⟨r, hr, hid2, v, hv, hk⟩ := (hidx F hF k id).mp hm
              rw [hdata] at hr
              rcases List.mem_append.mp hr with hr2 | hr2
              · exact hneq r (Or.inl hr2) hid2
              · rcases List.mem_cons.mp hr2 with hr3 | hr3
                · subst hr3
                  exact hnrc ⟨hF, v, hv, hk.symm, rfl⟩
                · exact hneq r (Or.inr hr3) hid2
            · refine ⟨mergeRecord old patch, ?_, hidow, v, hv, hk.symm⟩
              rw [hrep]
              exact List.mem_append.mpr (Or.inr (List.mem_cons_self _ _))
          · rintro ⟨r, hr, hid2, v, hv, hk⟩
            rw [hrep] at hr
            rcases List.mem_append.mp hr with hr2 | hr2
            · exact absurd hid2 (hneq r (Or.inl hr2))
            · rcases List.mem_cons.mp hr2 with hr3 | hr3
              · subst hr3
                exact Or.inr ⟨hF, v, hv, hk.symm, rfl⟩
              · exact absurd hid2 (hneq r (Or.inr hr3))
        · constructor
          · rintro (⟨hm, _⟩ | ⟨_, v, hv, hk, hidr2⟩)
            · obtain ⟨r, hr, hid2, v, hv, hk⟩ := (hidx F hF k id).mp hm
              rw [hdata] at hr
              refine ⟨r, ?_, hid2, v, hv, hk⟩
              rw [hrep]
              rcases List.mem_append.mp hr with hr2 | hr2
              · exact List.mem_append.mpr (Or.inl hr2)
              · rcases List.mem_cons.mp hr2 with hr3 | hr3
                · exfalso
                  rw [hr3] at hid2
                  exact hidr (hid2.symm.trans hpold)
                · exact List.mem_append.mpr (Or.inr (List.mem_cons_of_mem _ hr3))
            · exact absurd hidr2 hidr
          · rintro ⟨r, hr, hid2, v, hv, hk⟩
            rw [hrep] at hr
            refine Or.inl ⟨?_, ?_⟩
            · apply (hidx F hF k id).mpr
              refine ⟨r, ?_, hid2, v, hv, hk⟩
              rw [hdata]
              rcases List.mem_append.mp hr with hr2 | hr2
              · exact List.mem_append.mpr (Or.inl hr2)
              · rcases List.mem_cons.mp hr2 with hr3 | hr3
                · exfalso
                  rw [hr3] at hid2
                  exact hidr (hid2.symm.trans hidow)
                · exact List.mem_append.mpr (Or.inr (List.mem_cons_of_mem _ hr3))
            · rintro ⟨_, v2, hv2, hk2, hidr2⟩
              exact hidr hidr2

theorem inv_deleteRecordByIdS (flds : List String) (rid : String) (st : St)
    (hinv : Inv flds st) (herr : (deleteRecordByIdS flds rid st).err = none) :
    Inv flds (deleteRecordByIdS flds rid st).st := by
  obtain ⟨hstr, hnd, hidx⟩ := hinv
  by_cases hrid : rid = ""
  · unfold deleteRecordByIdS at herr
    rw [if_pos hrid] at herr
    exact absurd herr (by simp)
  · by_cases hlen : (((recsOf st).filter (fun r => idOf r != rid)).length
        == (recsOf st).length) = true
    · unfold deleteRecordByIdS at herr
      rw [if_neg hrid, if_pos hlen] at herr
      exact absurd herr (by simp)
    · cases hfind : (recsOf st).find? (fun r => idOf r == rid) with
      | none =>
        unfold deleteRecordByIdS at herr
        rw [if_neg hrid, if_neg hlen, hfind] at herr
        exact absurd herr (by simp)
      | some rec =>
        rw [deleteRecordByIdS_found flds rid st rec hrid (Bool.eq_false_iff.mpr hlen) hfind]
        have hpold : idOf rec = rid := by
          have h := List.find?_some hfind
          simp only [beq_iff_eq] at h
          exact h
        obtain ⟨l1, l2, hdata, hl1, _⟩ := replaceFirst_decomp hfind rec
        have hneq : ∀ x, x ∈ l1 ∨ x ∈ l2 → idOf x ≠ rid := by
          have hnd2 := hnd
          rw [hdata, List.map_append, List.map_cons] at hnd2
          have hmid := (List.nodup_cons.mp (List.nodup_middle.mp hnd2)).1
          intro x hx hc
          apply hmid
          rw [hpold, ← hc]
          rcases hx with hx | hx
          · exact List.mem_append.mpr (Or.inl (List.mem_map_of_mem idOf hx))
          · exact List.mem_append.mpr (Or.inr (List.mem_map_of_mem idOf hx))
        have hfilter : (recsOf st).filter (fun r => idOf r != rid) = l1 ++ l2 := by
          rw [hdata, List.filter_append, List.filter_cons]
          have hrecf : (idOf rec != rid) = false := by
            rw [bne_eq_false_iff_eq]
            exact hpold
          rw [hrecf]
          have hfl1 : l1.filter (fun r => idOf r != rid) = l1 := by
            rw [List.filter_eq_self]
            intro x hx
            exact bne_iff_ne.mpr (beq_eq_false_iff_ne.mp (hl1 x hx))
          have hfl2 : l2.filter (fun r => idOf r != rid) = l2 := by
            rw [List.filter_eq_self]
            intro x hx
            exact bne_iff_ne.mpr (hneq x (Or.inr hx))
          rw [hfl1, hfl2]
          simp
        rw [hfilter]
        have hnd3 : ((l1 ++ l2).map idOf).Nodup := by
          have hnd2 := hnd
          rw [hdata, List.map_append, List.map_cons] at hnd2
          have hmid := (List.nodup_cons.mp (List.nodup_middle.mp hnd2)).2
          rw [List.map_append]
          exact hmid
        refine ⟨?_, hnd3, ?_⟩
        · intro r hr
          rcases List.mem_append.mp hr with hr2 | hr2
          · exact hstr r (by rw [hdata]; exact List.mem_append.mpr (Or.inl hr2))
          · exact hstr r
              (by rw [hdata]; exact List.mem_append.mpr (Or.inr (List.mem_cons_of_mem _ hr2)))
        · intro F hF k id
          show id ∈ findIdsS (applyRemoveIndexes rec rid flds st.index) F k ↔ _
          rw [mem_findIdsS_applyRemoveIndexes]
          by_cases hidr : id = rid
          · subst hidr
            constructor
            · rintro ⟨hm, hnrc⟩
              exfalso
              obtain ⟨r, hr, hid2, v, hv, hk⟩ := (hidx F hF k id).mp hm
              rw [hdata] at hr
              rcases List.mem_append.mp hr with hr2 | hr2
              · exact hneq r (Or.inl hr2) hid2
              · rcases List.mem_cons.mp hr2 with hr3 | hr3
                · subst hr3
                  exact hnrc ⟨hF, v, hv, hk.symm, rfl⟩
                · exact hneq r (Or.inr hr3) hid2
            · rintro ⟨r, hr, hid2, _⟩
              exact absurd hid2 (hneq r (List.mem_append.mp hr))
          · constructor
            · rintro ⟨hm, _⟩
              obtain ⟨r, hr, hid2, v, hv, hk⟩ := (hidx F hF k id).mp hm
              rw [hdata] at hr
              refine ⟨r, ?_, hid2, v, hv, hk⟩
              rcases List.mem_append.mp hr with hr2 | hr2
              · exact List.mem_append.mpr (Or.inl hr2)
              · rcases List.mem_cons.mp hr2 with hr3 | hr3
                · exfalso
                  rw [hr3] at hid2
                  exact hidr (hid2.symm.trans hpold)
                · exact List.mem_append.mpr (Or.inr hr3)
            · rintro ⟨r, hr, hid2, v, hv, hk⟩
              refine ⟨?_, ?_⟩
              · apply (hidx F hF k id).mpr
                refine ⟨r, ?_, hid2, v, hv, hk⟩
                rw [hdata]
                rcases List.mem_append.mp hr with hr2 | hr2
                · exact List.mem_append.mpr (Or.inl hr2)
                · exact List.mem_append.mpr (Or.inr (List.mem_cons_of_mem _ hr2))
              · rintro ⟨_, v2, hv2, hk2, hidr2⟩
                exact hidr hidr2

theorem inv_deleteAllS (flds : List String) (st : St) (hinv : Inv flds st) :
    Inv flds (deleteAllS st).st := by
  unfold deleteAllS
  cases hf : st.file with
  | none =>
    show Inv flds st
    exact hinv
  | some d =>
    refine ⟨?_, ?_, ?_⟩
    · intro r hr
      exact absurd hr (List.not_mem_nil r)
    · exact List.nodup_nil
    · intro F _ k id
      constructor
      · intro h
        have hempty : findIdsS ([] : Idx) F k = [] := rfl
        rw [hempty] at h
        exact absurd h (List.not_mem_nil id)
      · rintro ⟨r, hr, _⟩
        exact absurd hr (List.not_mem_nil r)

theorem inv_of_reachableWf (flds : List String) (s : St) (h : ReachableWf flds s) :
    Inv flds s := by
  induction h with
  | init => exact inv_init flds
  | addAll s gen recs ow _ herr _ => exact inv_addAllS flds gen recs ow s herr
  | editAll s recs _ hwf herr _ => exact inv_editAllS flds recs s hwf herr
  | addId s gen r _ herr ih => exact inv_addRecordByIdS flds gen r s ih herr
  | editId s rid patch _ herr ih => exact inv_editRecordByIdS flds rid patch s ih herr
  | delId s rid _ herr ih => exact inv_deleteRecordByIdS flds rid s ih herr
  | delAll s _ _ ih => exact inv_deleteAllS flds s ih

end XdB.Store

namespace XdB.View

open XdB

theorem insertJs_decomp (cmp : Record → Record → Int) (x : Record) (l : List Record) :
    ∃ l1 l2, insertJs cmp x l = l1 ++ x :: l2 ∧ l = l1 ++ l2 ∧ ∀ z ∈ l1, cmp z x < 0 := by
  induction l with
  | nil => exact ⟨[], [], rfl, rfl, by simp⟩
  | cons y ys ih =>
    by_cases h : cmp y x < 0
    · obtain ⟨l1, l2, h1, h2, h3⟩ := ih
      refine ⟨y :: l1, l2, ?_, by rw [List.cons_append, ← h2], ?_⟩
      · show (if cmp y x < 0 then y :: insertJs cmp x ys else x :: y :: ys) = _
        rw [if_pos h, h1]
        rfl
      · intro z hz
        rcases List.mem_cons.mp hz with hz2 | hz2
        · rw [hz2]; exact h
        · exact h3 z hz2
    · refine ⟨[], y :: ys, ?_, rfl, by simp⟩
      show (if cmp y x < 0 then y :: insertJs cmp x ys else x :: y :: ys) = _
      rw [if_neg h]
      rfl

theorem sublist_insertJs (cmp : Record → Record → Int) (x : Record)
    {s l : List Record} (h : s.Sublist l) : s.Sublist (insertJs cmp x l) := by
  obtain ⟨l1, l2, h1, h2, _⟩ := insertJs_decomp cmp x l
  rw [h1]
  have hmid : (l1 ++ l2).Sublist (l1 ++ x :: l2) :=
    List.Sublist.append_left (List.sublist_cons_self x l2) l1
  exact (h2 ▸ h).trans hmid

theorem sortJs_perm (cmp : Record → Record → Int) (l : List Record) :
    (sortJs cmp l).Perm l := by
  induction l with
  | nil => exact List.Perm.refl []
  | cons x xs ih =>
    show (insertJs cmp x (sortJs cmp xs)).Perm (x :: xs)
    obtain ⟨l1, l2, h1, h2, _⟩ := insertJs_decomp cmp x (sortJs cmp xs)
    rw [h1]
    have hp1 : (l1 ++ x :: l2).Perm (x :: (l1 ++ l2)) := List.perm_middle
    have hp2 : (x :: (l1 ++ l2)).Perm (x :: xs) := List.Perm.cons x (h2 ▸ ih)
    exact hp1.trans hp2

theorem sortJs_stable_pair (cmp : Record → Record → Int) {a b : Record}
    (hba : ¬ cmp b a < 0) :
    ∀ {l : List Record}, List.Sublist [a, b] l → List.Sublist [a, b] (sortJs cmp l) := by
  intro l
  induction l with
  | nil => intro h; simp at h
  | cons x xs ih =>
    intro h
    cases h with
    | cons _ h2 =>
      exact sublist_insertJs cmp x (ih h2)
    | cons₂ _ h2 =>
      show List.Sublist [a, b] (insertJs cmp a (sortJs cmp xs))
      have hbmem : b ∈ sortJs cmp xs :=
        (sortJs_perm cmp xs).mem_iff.mpr (List.singleton_sublist.mp h2)
      obtain ⟨l1, l2, h1, hsplit, hlt⟩ := insertJs_decomp cmp a (sortJs cmp xs)
      rw [h1]
      have hbl2 : b ∈ l2 := by
        rcases List.mem_append.mp (hsplit ▸ hbmem) with hb1 | hb2
        · exact absurd (hlt b hb1) hba
        · exact hb2
      have hsub : List.Sublist [a, b] (a :: l2) :=
        List.Sublist.cons₂ a (List.singleton_sublist.mpr hbl2)
      exact hsub.trans (List.sublist_append_right l1 (a :: l2))

theorem keyCmp_zero_swap (k : String) (a b : Record) (h : keyCmp k a b = 0) :
    keyCmp k b a = 0 := by
  unfold keyCmp at h ⊢
  by_cases h1 : jsLtO (getF a k) (getF b k) = true
  · rw [if_pos h1] at h
    cases h
  · rw [if_neg h1] at h
    by_cases h2 : jsLtO (getF b k) (getF a k) = true
    · rw [if_pos h2] at h
      cases h
    · rw [if_neg h2, if_neg h1]

theorem multiCmp_head_zero (c : SortCrit) (cs : List SortCrit) (a b : Record)
    (h : critCmp c a b = 0) : multiCmp (c :: cs) a b = multiCmp cs a b := by
  show (if critCmp c a b ≠ 0 then critCmp c a b * dirOf c else multiCmp cs a b)
    = multiCmp cs a b
  rw [h]
  simp

theorem multiCmp_cons_decomp (c : SortCrit) (cs : List SortCrit) (a b : Record)
    (h : multiCmp (c :: cs) a b = 0) :
    critCmp c a b = 0 ∧ multiCmp cs a b = 0 := by
  unfold multiCmp at h
  by_cases hc : critCmp c a b ≠ 0
  · rw [if_pos hc] at h
    exfalso
    rcases Int.mul_eq_zero.mp h with h2 | h2
    · exact hc h2
    · unfold dirOf at h2
      by_cases hd : c.desc <;> simp [hd] at h2
  · rw [if_neg hc] at h
    push_neg at hc
    exact ⟨hc, h⟩

theorem multiCmp_zero_symm (crits : List SortCrit)
    (hnc : ∀ c ∈ crits, c.comparator = none) (a b : Record)
    (h : multiCmp crits a b = 0) : multiCmp crits b a = 0 := by
  induction crits with
  | nil => rfl
  | cons c cs ih =>
    obtain ⟨h1, h2⟩ := multiCmp_cons_decomp c cs a b h
    have hcn : c.comparator = none := hnc c (List.mem_cons_self c cs)
    have hk : keyCmp c.key a b = 0 := by
      unfold critCmp at h1
      rw [hcn] at h1
      exact h1
    have hk2 : critCmp c b a = 0 := by
      unfold critCmp
      rw [hcn]
      exact keyCmp_zero_swap c.key a b hk
    rw [multiCmp_head_zero c cs b a hk2]
    exact ih (fun x hx => hnc x (List.mem_cons_of_mem c hx)) h2

theorem keyCmp_undef_left (k : String) (a b : Record) (h : getF a k = none) :
    keyCmp k a b = 0 ∧ keyCmp k b a = 0 := by
  have h1 : jsLtO (getF a k) (getF b k) = false := by
    rw [h]
    unfold jsLtO
    cases hb : getF b k with
    | none => rfl
    | some v => cases v <;> rfl
  have h2 : jsLtO (getF b k) (getF a k) = false := by
    rw [h]
    unfold jsLtO
    cases hb : getF b k with
    | none => rfl
    | some v => cases v <;> simp [jsToNumO, jsToNum]
  constructor
  · unfold keyCmp
    rw [if_neg (by rw [h1]; exact Bool.false_ne_true),
      if_neg (by rw [h2]; exact Bool.false_ne_true)]
  · unfold keyCmp
    rw [if_neg (by rw [h2]; exact Bool.false_ne_true),
      if_neg (by rw [h1]; exact Bool.false_ne_true)]

theorem keyCmp_null_num (k : String) (a b : Record) (n : Int)
    (ha : getF a k = some Value.vNull) (hb : getF b k = some (Value.vNum n)) :
    keyCmp k a b = (if (0 : Int) < n then -1 else if n < 0 then 1 else 0) := by
  unfold keyCmp
  rw [ha, hb]
  have h1 : jsLtO (some Value.vNull) (some (Value.vNum n)) = decide ((0 : Int) < n) := rfl
  have h2 : jsLtO (some (Value.vNum n)) (some Value.vNull) = decide (n < (0 : Int)) := rfl
  rw [h1, h2]
  by_cases hpos : (0 : Int) < n
  · rw [if_pos (decide_eq_true hpos), if_pos hpos]
  · rw [if_neg (by rw [decide_eq_false hpos]; exact Bool.false_ne_true), if_neg hpos]
    by_cases hneg : n < 0
    · rw [if_pos (decide_eq_true hneg), if_pos hneg]
    · rw [if_neg (by rw [decide_eq_false hneg]; exact Bool.false_ne_true), if_neg hneg]

theorem keyCmp_null_str (k : String) (a b : Record) (s : String)
    (ha : getF a k = some Value.vNull) (hb : getF b k = some (Value.vStr s))
    (hnan : parseJsNum s = none) : keyCmp k a b = 0 := by
  unfold keyCmp
  rw [ha, hb]
  have h1 : jsLtO (some Value.vNull) (some (Value.vStr s)) = false := by
    show (match (some (0 : Int) : Option Int), parseJsNum s with
      | some m, some n => decide (m < n)
      | _, _ => false) = false
    rw [hnan]
  have h2 : jsLtO (some (Value.vStr s)) (some Value.vNull) = false := by
    show (match parseJsNum s, (some (0 : Int) : Option Int) with
      | some m, some n => decide (m < n)
      | _, _ => false) = false
    rw [hnan]
  rw [if_neg (by rw [h1]; exact Bool.false_ne_true),
    if_neg (by rw [h2]; exact Bool.false_ne_true)]

end XdB.View

namespace XdB.Store

open XdB

theorem map_id_of_no_match {l : List Record} {rid : String} {u : Record}
    (h : ∀ x ∈ l, idOf x ≠ rid) :
    l.map (fun r => if idOf r = rid then u else r) = l := by
  have hcong : ∀ x ∈ l, (fun r => if idOf r = rid then u else r) x = id x := by
    intro x hx
    show (if idOf x = rid then u else x) = x
    rw [if_neg (h x hx)]
  rw [List.map_congr_left hcong, List.map_id]

theorem replaceFirst_eq_map {data : List Record} {rid : String} {old : Record}
    (hnd : (data.map idOf).Nodup)
    (hfind : data.find? (fun r => idOf r == rid) = some old) (u : Record) :
    replaceFirst (fun r => idOf r == rid) u data
      = data.map (fun r => if idOf r = rid then u else r) := by
  obtain ⟨l1, l2, hdata, hl1, hrep⟩ := replaceFirst_decomp hfind u
  have hpold : idOf old = rid := by
    have h := List.find?_some hfind
    simp only [beq_iff_eq] at h
    exact h
  have hneq : ∀ x, x ∈ l1 ∨ x ∈ l2 → idOf x ≠ rid := by
    have hnd2 := hnd
    rw [hdata, List.map_append, List.map_cons] at hnd2
    have hmid := (List.nodup_cons.mp (List.nodup_middle.mp hnd2)).1
    intro x hx hc
    apply hmid
    rw [hpold, ← hc]
    rcases hx with hx | hx
    · exact List.mem_append.mpr (Or.inl (List.mem_map_of_mem idOf hx))
    · exact List.mem_append.mpr (Or.inr (List.mem_map_of_mem idOf hx))
  rw [hrep, hdata, List.map_append, List.map_cons]
  rw [map_id_of_no_match (fun x hx => hneq x (Or.inl hx)),
    map_id_of_no_match (fun x hx => hneq x (Or.inr hx)),
    if_pos hpold]

end XdB.Store

namespace XdB.Rel

open XdB

theorem filter_length_beq_false (data : List Record) (rid : String) (r : Record)
    (hr : r ∈ data) (hid : idOf r = rid) :
    ((data.filter (fun x => idOf x != rid)).length == data.length) = false := by
  apply beq_eq_false_iff_ne.mpr
  intro heq
  have hsub : (data.filter (fun x => idOf x != rid)).Sublist data :=
    List.filter_sublist data
  have hfeq : data.filter (fun x => idOf x != rid) = data := hsub.eq_of_length heq
  have hall := List.filter_eq_self.mp hfeq r hr
  rw [bne_iff_ne] at hall
  exact hall hid

end XdB.Rel

namespace XdB.Store

open XdB

theorem addAllS_run (flds : List String) (gen : Nat → String) (recs : List Record)
    (ow : Bool) (st : St) (processed : List Record)
    (hai : assignIds gen 0 recs = Except.ok processed) :
    addAllS flds gen recs ow st =
      (if hasDupIds (processed.map idOf) = true then
        ⟨st, [Event.beforeAddAll, Event.errorAddAll], some ErrCode.recordExists⟩
      else if (st.file.isSome && !ow) = true then
        ⟨st, [Event.beforeAddAll, Event.errorAddAll], some ErrCode.operationFailed⟩
      else
        ⟨⟨some processed, rebuildIndexS processed flds st.index, []⟩,
          [Event.beforeAddAll, Event.afterAddAll], none⟩) := by
  unfold addAllS
  rw [hai]

end XdB.Store

namespace XdB.Claims

open XdB XdB.Store XdB.View XdB.Rel XdB.FS XdB.Fixtures

/-- Counterexample to claim C1 as stated: with one CASCADE relation from
a.json to b.json and one referencing record, a successful delete of the
parent record performs its write sequence with the dependent-collection
write to b.json first and the primary-collection write to a.json second,
so a dependent-collection write does precede the primary collection's
write. -/
theorem c1_counterexample :
    (deleteRecordByIdMS [relCascade] 5 "a.json" "x" mRel).2.2 = none ∧
    (deleteRecordByIdMS [relCascade] 5 "a.json" "x" mRel).2.1
      = [Act.writeColl "b.json" [], Act.writeColl "a.json" []] ∧
    "b.json" ≠ "a.json" := by
  refine ⟨?_, ?_, ?_⟩ <;> decide

/-- Claim C1 (amended): in deleteRecordByIdMS the CASCADE and SET_NULL
side effects on dependent collections run before the primary record's
removal is written; on every successful delete the write of the primary
collection file is the final collection write of the step sequence, with
every dependent-collection write preceding it. -/
theorem c1_cascade_before_primary_write (rels : List RelCfg) (fuel : Nat)
    (file rid : String) (m : MSt)
    (herr : (deleteRecordByIdMS rels fuel file rid m).2.2 = none) :
    ∃ pre d, (deleteRecordByIdMS rels fuel file rid m).2.1
      = pre ++ [Act.writeColl file d] := by
  cases fuel with
  | zero => simp [deleteRecordByIdMS] at herr
  | succ f =>
    unfold deleteRecordByIdMS at herr ⊢
    by_cases h1 : rid = ""
    · rw [if_pos h1] at herr
      exact absurd herr (by simp)
    · rw [if_neg h1] at herr ⊢
      by_cases h2 : file ∈ m.locks
      · rw [if_pos h2] at herr
        exact absurd herr (by simp)
      · rw [if_neg h2] at herr ⊢
        by_cases h3 : (((readColl m file).filter (fun r => idOf r != rid)).length
            == (readColl m file).length) = true
        · rw [if_pos h3] at herr
          exact absurd herr (by simp)
        · rw [if_neg h3] at herr ⊢
          by_cases h4 : ((rels.filter (fun r => r.localFile == file)).any (fun r =>
              r.onDelete == DelPolicy.restrictPolicy
                && !(relMatches m r rid).isEmpty)) = true
          · rw [if_pos h4] at herr
            exact absurd herr (by simp)
          · rw [if_neg h4]
            exact ⟨_, _, rfl⟩

/-- Witness for claim C1: the amended theorem applied to the concrete
CASCADE scenario. -/
theorem c1_witness :
    ∃ pre d, (deleteRecordByIdMS [relCascade] 5 "a.json" "x" mRel).2.1
      = pre ++ [Act.writeColl "a.json" d] :=
  c1_cascade_before_primary_write [relCascade] 5 "a.json" "x" mRel (by decide)

/-- Counterexample to claim C2 as stated: the RESTRICT violation is
reported with the error code XDB_OPERATION_FAILED, and no RelationViolation
code exists anywhere in the XDB_ERROR_CODES taxonomy, so the delete cannot
fail with a RelationViolation error. -/
theorem c2_counterexample :
    (deleteRecordByIdMS [relRestrict] 5 "a.json" "x" mRel).2.2
      = some ErrCode.operationFailed ∧
    errCodeStr ErrCode.operationFailed = "XDB_OPERATION_FAILED" ∧
    "XDB_RELATION_VIOLATION" ∉ xdbErrorCodeStrings := by
  refine ⟨?_, ?_, ?_⟩ <;> decide

/-- Claim C2 (amended): when a declared RESTRICT relation has the target
collection as its local collection and its check collection holds a
referencing record, deleteRecordByIdMS fails with the code
XDB_OPERATION_FAILED (the source has no RelationViolation code) before the
record is removed, and the target collection file is unchanged by the
failed call. -/
theorem c2_restrict_blocks_delete (rels : List RelCfg) (fuel : Nat)
    (file rid : String) (m : MSt) (rc : RelCfg) (r : Record)
    (hrid : rid ≠ "") (hlock : file ∉ m.locks)
    (hr : r ∈ readColl m file) (hid : idOf r = rid)
    (hrc : rc ∈ rels) (hlf : rc.localFile = file)
    (hod : rc.onDelete = DelPolicy.restrictPolicy)
    (hm : relMatches m rc rid ≠ []) :
    (deleteRecordByIdMS rels (fuel + 1) file rid m).2.2
      = some ErrCode.operationFailed ∧
    (deleteRecordByIdMS rels (fuel + 1) file rid m).1.colls file = m.colls file := by
  unfold deleteRecordByIdMS
  rw [if_neg hrid, if_neg hlock]
  have h3 := filter_length_beq_false (readColl m file) rid r hr hid
  rw [if_neg (by rw [h3]; exact Bool.false_ne_true)]
  have hie : (relMatches m rc rid).isEmpty = false := by
    cases hrel : relMatches m rc rid with
    | nil => exact absurd hrel hm
    | cons x xs => rfl
  have h4 : ((rels.filter (fun r2 => r2.localFile == file)).any (fun r2 =>
      r2.onDelete == DelPolicy.restrictPolicy && !(relMatches m r2 rid).isEmpty)) = true := by
    apply List.any_eq_true.mpr
    refine ⟨rc, List.mem_filter.mpr ⟨hrc, beq_iff_eq.mpr hlf⟩, ?_⟩
    rw [hod, hie]
    rfl
  rw [if_pos h4]
  exact ⟨rfl, rfl⟩

/-- Witness for claim C2: the amended theorem applied to the concrete
RESTRICT scenario. -/
theorem c2_witness :
    (deleteRecordByIdMS [relRestrict] 5 "a.json" "x" mRel).2.2
      = some ErrCode.operationFailed ∧
    (deleteRecordByIdMS [relRestrict] 5 "a.json" "x" mRel).1.colls "a.json"
      = mRel.colls "a.json" :=
  c2_restrict_blocks_delete [relRestrict] 4 "a.json" "x" mRel relRestrict
    [("id", Value.vStr "x")] (by decide) (by decide) (by decide) (by decide)
    (by decide) (by decide) (by decide) (by decide)

/-- Counterexample to claim C3 as stated: edit.all accepts an input with
two records sharing one id, because it never checks for duplicates; after
a subsequent deleteRecordById of that id, the index still returns the id
under the second record's field value although the collection is empty,
so index consistency fails on a state reachable by add/edit/delete
operations that completed without failure. -/
theorem c3_counterexample :
    Reachable ["f"] stBad ∧ ¬ IndexConsistent ["f"] stBad := by
  constructor
  · have h1 : Reachable ["f"] stDup :=
      Reachable.editAll ⟨none, [], []⟩ dupRecs Reachable.init (by decide)
    exact Reachable.delId stDup "x" h1 (by decide)
  · intro h
    have h2 := (h "f" (List.mem_cons_self "f" [])).2 (Value.vStr "B") "x" (by decide)
    obtain ⟨r, hr, _⟩ := h2
    have hempty : recsOf stBad = [] := by decide
    rw [hempty] at hr
    exact absurd hr (List.not_mem_nil r)

/-- Claim C3 (amended): index consistency holds for every state reachable
by successful add and delete operations and by edit operations whose
edit.all inputs carry pairwise-distinct, non-null ids (as add.all
enforces for its own inputs): for every configured field, every record
owning the field is found by findIndexedRecords under its stringified
value, and every id returned by findIndexedRecords belongs to a record
whose field stringifies to the queried value. -/
theorem c3_index_consistency (flds : List String) (s : St)
    (h : ReachableWf flds s) : IndexConsistent flds s := by
  obtain ⟨hstr, hnd, hidx⟩ := inv_of_reachableWf flds s h
  intro F hF
  constructor
  · intro r hr v hv
    exact (hidx F hF (valKey v) (idOf r)).mpr ⟨r, hr, rfl, v, hv, rfl⟩
  · intro v id hmem
    obtain ⟨r, hr, hid, w, hw, hk⟩ := (hidx F hF (valKey v) id).mp hmem
    exact ⟨r, hr, hid, w, hw, hk⟩

/-- Witness for claim C3: index consistency of the concrete state reached
by one add.all call, through the amended theorem. -/
theorem c3_witness : IndexConsistent ["name"] stW :=
  c3_index_consistency ["name"] stW
    (ReachableWf.addAll ⟨none, [], []⟩ genW recsW true ReachableWf.init (by decide))

/-- Counterexample to claim C4 as stated: on a five-record collection
with skip 2 and limit 2 the page is exactly the records at positions 2
and 3, but the result object of view.more carries only the path and data
keys, so no total count, skip, limit or page number is reported. -/
theorem c4_counterexample :
    viewMoreData ⟨none, none, some 2, some 2⟩ fiveRecs
      = [[("id", Value.vStr "2")], [("id", Value.vStr "3")]] ∧
    "total" ∉ viewMoreResultKeys ∧ "skip" ∉ viewMoreResultKeys ∧
    "limit" ∉ viewMoreResultKeys ∧ "page" ∉ viewMoreResultKeys := by
  refine ⟨?_, ?_, ?_, ?_, ?_⟩ <;> decide

/-- Claim C4 (amended): view.more with skip 2 and limit 2 returns exactly
the 0-indexed positions 2 and 3 of the filtered and sorted sequence; the
result reports only the resolved path and the data page, not a total
count, skip, limit or page number. -/
theorem c4_pagination :
    (∀ (f : Option (Record → Bool)) (s : Option (List SortCrit)) (l : List Record),
      viewMoreData ⟨f, s, some 2, some 2⟩ l
        = ((viewMoreData ⟨f, s, none, none⟩ l).drop 2).take 2) ∧
    (∀ a b c d e : Record,
      viewMoreData ⟨none, none, some 2, some 2⟩ [a, b, c, d, e] = [c, d]) ∧
    viewMoreResultKeys = ["path", "data"] :=
  ⟨fun _ _ _ => rfl, fun _ _ _ _ _ => rfl, rfl⟩

/-- Counterexample to claim C5 as stated: under an ascending single-key
sort, the record whose key is null is placed before the record whose key
is the number 5, because null coerces to the number 0; null values are
not placed after all non-null values. -/
theorem c5_counterexample :
    sortJs (multiCmp [⟨"k", false, none⟩]) [recNum5, recNullK] = [recNullK, recNum5] ∧
    getF recNullK "k" = some Value.vNull ∧
    getF recNum5 "k" = some (Value.vNum 5) := by
  refine ⟨?_, ?_, ?_⟩ <;> decide

/-- Claim C5 (amended): the view.more sort is a stable permutation and
later keys break ties left by earlier keys; however null and undefined
sort-key values are not placed last: a missing key compares as a tie in
both directions, a null key value compares as the number 0 against
numeric values (so ascending order places null before positive numbers),
and null ties with non-numeric strings. -/
theorem c5_sort_stability :
    (∀ (cmp : Record → Record → Int) (l : List Record), (sortJs cmp l).Perm l) ∧
    (∀ (crits : List SortCrit) (a b : Record) (l : List Record),
      (∀ c ∈ crits, c.comparator = none) → multiCmp crits a b = 0 →
      List.Sublist [a, b] l → List.Sublist [a, b] (sortJs (multiCmp crits) l)) ∧
    (∀ (c : SortCrit) (cs : List SortCrit) (a b : Record),
      critCmp c a b = 0 → multiCmp (c :: cs) a b = multiCmp cs a b) ∧
    (∀ (k : String) (a b : Record), getF a k = none →
      keyCmp k a b = 0 ∧ keyCmp k b a = 0) ∧
    (∀ (k : String) (a b : Record) (n : Int), getF a k = some Value.vNull →
      getF b k = some (Value.vNum n) →
      keyCmp k a b = (if (0 : Int) < n then -1 else if n < 0 then 1 else 0)) ∧
    (∀ (k : String) (a b : Record) (s : String), getF a k = some Value.vNull →
      getF b k = some (Value.vStr s) → parseJsNum s = none → keyCmp k a b = 0) := by
  refine ⟨sortJs_perm, ?_, multiCmp_head_zero, keyCmp_undef_left, keyCmp_null_num,
    keyCmp_null_str⟩
  intro crits a b l hnc h0 hsub
  have hba : multiCmp crits b a = 0 := multiCmp_zero_symm crits hnc a b h0
  apply sortJs_stable_pair (multiCmp crits) (by omega) hsub

/-- Witness for claim C5: the stability clause applied to a concrete tied
pair with an interposed smaller record, and the null-versus-number clause
applied to concrete records. -/
theorem c5_witness :
    List.Sublist [tieA, tieB]
      (sortJs (multiCmp [⟨"k", false, none⟩]) [tieA, tieM, tieB]) ∧
    keyCmp "k" recNullK recNum5 = -1 := by
  constructor
  · exact c5_sort_stability.2.1 [⟨"k", false, none⟩] tieA tieB [tieA, tieM, tieB]
      (fun c hc => by rw [List.mem_singleton.mp hc])
      (by decide)
      (List.Sublist.cons₂ tieA (List.Sublist.cons tieM
        (List.Sublist.cons₂ tieB List.Sublist.slnil)))
  · have h := c5_sort_stability.2.2.2.2.1 "k" recNullK recNum5 5 (by decide) (by decide)
    rw [h]
    decide

/-- Claim C6: editRecordById shallow-merges the patch onto the existing
record found by its stringified id, never altering the id even when the
patch carries an id key, and fails with RECORD_NOT_FOUND when no record
with that id exists, leaving the state unchanged. -/
theorem c6_edit_merge (flds : List String) (st : St) (rid : String) (patch : Record)
    (hrid : rid ≠ "") (hnd : ((recsOf st).map idOf).Nodup) :
    (∀ old ∈ recsOf st, idOf old = rid → (getF old "id").isSome = true →
      (editRecordByIdS flds rid patch st).err = none ∧
      recsOf (editRecordByIdS flds rid patch st).st
        = (recsOf st).map (fun r => if idOf r = rid then mergeRecord old patch else r) ∧
      getF (mergeRecord old patch) "id" = getF old "id" ∧
      idOf (mergeRecord old patch) = idOf old) ∧
    ((∀ r ∈ recsOf st, idOf r ≠ rid) →
      (editRecordByIdS flds rid patch st).err = some ErrCode.recordNotFound ∧
      (editRecordByIdS flds rid patch st).st = st) := by
  constructor
  · intro old hold hid hsome
    have hfind : (recsOf st).find? (fun r => idOf r == rid) = some old :=
      find?_eq_some_of_nodup hnd hold hid
    rw [editRecordByIdS_found flds rid patch st old hrid hfind]
    refine ⟨rfl, ?_, ?_, idOf_mergeRecord old patch⟩
    · show replaceFirst (fun r => idOf r == rid) (mergeRecord old patch) (recsOf st) = _
      exact replaceFirst_eq_map hnd hfind (mergeRecord old patch)
    · rw [getF_mergeRecord_id]
      obtain ⟨w, hw⟩ := Option.isSome_iff_exists.mp hsome
      rw [hw]
      rfl
  · intro hnone
    have hfind : (recsOf st).find? (fun r => idOf r == rid) = none := by
      rw [List.find?_eq_none]
      intro x hx
      intro hc
      exact hnone x hx (beq_iff_eq.mp hc)
    rw [editRecordByIdS_notFound flds rid patch st hrid hfind]
    exact ⟨rfl, rfl⟩

/-- Witness for claim C6: the merge branch applied to a concrete
one-record collection with a patch that tries to overwrite the id. -/
theorem c6_witness :
    (editRecordByIdS [] "1" patchC6 stC6).err = none ∧
    recsOf (editRecordByIdS [] "1" patchC6 stC6).st
      = (recsOf stC6).map (fun r => if idOf r = "1" then mergeRecord oldC6 patchC6 else r) ∧
    getF (mergeRecord oldC6 patchC6) "id" = getF oldC6 "id" ∧
    idOf (mergeRecord oldC6 patchC6) = idOf oldC6 :=
  (c6_edit_merge [] stC6 "1" patchC6 (by decide) (by decide)).1 oldC6
    (by decide) (by decide) (by decide)

/-- Claim C7: addRecordById rejects a supplied id that already exists
with RECORD_EXISTS and leaves the collection unchanged; appends a record
with a fresh supplied id; for a record without an id it generates a
token, regenerating at most 10 times on collision against the current
snapshot, appends the record under the first collision-free candidate
within the bound, and fails with OPERATION_FAILED when the first ten
candidates all collide. -/
theorem c7_add_record (flds : List String) (gen : Nat → String) (rec : Record)
    (st : St) :
    (∀ v, getF rec "id" = some v → v ≠ Value.vNull → v ≠ Value.vUndef →
      valKey v ≠ "" → ((recsOf st).any fun r => idOf r == valKey v) = true →
      (addRecordByIdS flds gen rec st).err = some ErrCode.recordExists ∧
      (addRecordByIdS flds gen rec st).st = st) ∧
    (∀ v, getF rec "id" = some v → v ≠ Value.vNull → v ≠ Value.vUndef →
      valKey v ≠ "" → ((recsOf st).any fun r => idOf r == valKey v) = false →
      (addRecordByIdS flds gen rec st).err = none ∧
      recsOf (addRecordByIdS flds gen rec st).st
        = recsOf st ++ [setF rec "id" (Value.vStr (valKey v))]) ∧
    (getF rec "id" = none →
      (∀ j, j < 10 → ((recsOf st).any fun r => idOf r == gen j) = true) →
      (addRecordByIdS flds gen rec st).err = some ErrCode.operationFailed ∧
      (addRecordByIdS flds gen rec st).st = st) ∧
    (∀ j0, getF rec "id" = none → j0 < 10 →
      ((recsOf st).any fun r => idOf r == gen j0) = false →
      (∀ j, j < j0 → ((recsOf st).any fun r => idOf r == gen j) = true) →
      (addRecordByIdS flds gen rec st).err = none ∧
      recsOf (addRecordByIdS flds gen rec st).st
        = recsOf st ++ [setF rec "id" (Value.vStr (gen j0))]) ∧
    (idLoop (fun s => (recsOf st).any fun r => idOf r == s) gen 0 11).1 ≤ 10 := by
  refine ⟨?_, ?_, ?_, ?_, ?_⟩
  · intro v hv hnn hnu hne hcol
    rw [addRecordByIdS_supplied_exists flds gen rec st v hv hnn hnu hne hcol]
    exact ⟨rfl, rfl⟩
  · intro v hv hnn hnu hne hcol
    rw [addRecordByIdS_supplied_ok flds gen rec st v hv hnn hnu hne hcol]
    exact ⟨rfl, rfl⟩
  · intro hid hall
    have hp := idLoop_all_collide (fun s => (recsOf st).any fun r => idOf r == s) gen
      hall 11 0 (by omega) (by omega)
    rw [addRecordByIdS_gen_fail flds gen rec st 10 (gen 10) (Or.inl hid) hp (by omega)]
    exact ⟨rfl, rfl⟩
  · intro j0 hid hj0 hfresh hbefore
    have hp := idLoop_first_fresh (fun s => (recsOf st).any fun r => idOf r == s) gen
      j0 hj0 hfresh (fun j hj => hbefore j hj) 11 0 (by omega) (by omega)
    rw [addRecordByIdS_gen_ok flds gen rec st j0 (gen j0) (Or.inl hid) hp (by omega)]
    exact ⟨rfl, rfl⟩
  · exact idLoop_fst_le (fun s => (recsOf st).any fun r => idOf r == s) gen 11 0
      (by omega)

/-- Witness for claim C7: the generated-id branch applied to a concrete
collection whose single record collides with the generator's first
candidate, so the second candidate is used. -/
theorem c7_witness :
    (addRecordByIdS [] gen7 rec7 st7).err = none ∧
    recsOf (addRecordByIdS [] gen7 rec7 st7).st
      = recsOf st7 ++ [setF rec7 "id" (Value.vStr (gen7 1))] :=
  (c7_add_record [] gen7 rec7 st7).2.2.2.1 1 (by decide) (by decide) (by decide)
    (by intro j hj
        have hj0 : j = 0 := by omega
        rw [hj0]
        decide)

/-- Claim C8: addAll assigns the missing ids of its input, fails with
RECORD_EXISTS when the processed sequence holds two records with equal
stringified ids and with OPERATION_FAILED when the collection file exists
and overwrite is off, leaving the state unchanged in both cases, and
otherwise replaces the whole collection file with the processed records,
every one of which carries a string id. -/
theorem c8_add_all (flds : List String) (gen : Nat → String) (recs : List Record)
    (ow : Bool) (st : St) (processed : List Record)
    (hai : assignIds gen 0 recs = Except.ok processed) :
    (hasDupIds (processed.map idOf) = true →
      (addAllS flds gen recs ow st).err = some ErrCode.recordExists ∧
      (addAllS flds gen recs ow st).st = st) ∧
    (hasDupIds (processed.map idOf) = false → st.file.isSome = true → ow = false →
      (addAllS flds gen recs ow st).err = some ErrCode.operationFailed ∧
      (addAllS flds gen recs ow st).st = st) ∧
    (hasDupIds (processed.map idOf) = false → (st.file = none ∨ ow = true) →
      (addAllS flds gen recs ow st).err = none ∧
      (addAllS flds gen recs ow st).st.file = some processed) ∧
    (processed.length = recs.length ∧
      ∀ r2 ∈ processed, ∃ s, getF r2 "id" = some (Value.vStr s)) := by
  refine ⟨?_, ?_, ?_, ?_⟩
  · intro hdup
    rw [addAllS_run flds gen recs ow st processed hai, if_pos hdup]
    exact ⟨rfl, rfl⟩
  · intro hdup hsome how
    have hff : (st.file.isSome && !ow) = true := by rw [hsome, how]; rfl
    rw [addAllS_run flds gen recs ow st processed hai,
      if_neg (by rw [hdup]; exact Bool.false_ne_true), if_pos hff]
    exact ⟨rfl, rfl⟩
  · intro hdup hor
    have hff : (st.file.isSome && !ow) = false := by
      rcases hor with h | h
      · rw [h]
        rfl
      · rw [h]
        simp
    rw [addAllS_run flds gen recs ow st processed hai,
      if_neg (by rw [hdup]; exact Bool.false_ne_true),
      if_neg (by rw [hff]; exact Bool.false_ne_true)]
    exact ⟨rfl, rfl⟩
  · have hfacts := assignIds_facts gen recs 0 processed hai
    exact ⟨hfacts.2, hfacts.1⟩

/-- Witness for claim C8: the duplicate-id branch applied to a concrete
input with a repeated supplied id. -/
theorem c8_witness :
    (addAllS [] gen8 recs8 true st8).err = some ErrCode.recordExists ∧
    (addAllS [] gen8 recs8 true st8).st = st8 :=
  (c8_add_all [] gen8 recs8 true st8 recs8 rfl).1 (by decide)

/-- Claim C9: atomicWrite writes the full content to a freshly named
temporary sibling and renames it onto the target; a fully successful run
leaves the target holding exactly the supplied content with the temp
gone, and a failure at any step, the rename included, deletes the
temporary file, raises the wrapped IO_ERROR, and leaves the target with
its previous committed content, never partially written. -/
theorem c9_atomic_write (data : String) (t0 : Option String) :
    atomicWriteFS none data t0 = (⟨some data, none⟩, none) ∧
    ∀ s, atomicWriteFS (some s) data t0 = (⟨t0, none⟩, some ErrCode.ioError) := by
  refine ⟨rfl, ?_⟩
  intro s
  cases s <;> rfl

/-- Claim C10: deleteAll on a collection whose data file does not exist
returns successfully at once as a no-op, creating no file, touching no
index file, keeping the relation cache, and emitting no afterDeleteAll
event; only when the file exists is it truncated to an empty array with
the collection's indexes dropped and the cache cleared. -/
theorem c10_delete_all_missing_noop (st : St) :
    (st.file = none → deleteAllS st = ⟨st, [Event.beforeDeleteAll], none⟩) ∧
    (∀ d, st.file = some d →
      deleteAllS st
        = ⟨⟨some [], [], []⟩, [Event.beforeDeleteAll, Event.afterDeleteAll], none⟩) := by
  constructor
  · intro h
    unfold deleteAllS
    rw [h]
  · intro d h
    unfold deleteAllS
    rw [h]

/-- Witness for claim C10: the missing-file branch applied to a state
holding a leftover index file and a cache entry, both preserved. -/
theorem c10_witness :
    deleteAllS stC10 = ⟨stC10, [Event.beforeDeleteAll], none⟩ :=
  (c10_delete_all_missing_noop stC10).1 rfl

end XdB.Claims
